import Mathlib

/-!
Verification development for the doctrus monorepo task runner.

The definitions below are a shallow embedding of the Go sources:
  * `internal/config/config.go`   — the static task model,
  * `internal/workspace/manager.go` — dependency discovery and Kahn's algorithm,
  * `internal/deps/tracker.go`    — change tracking (fingerprints, ShouldRun),
  * `internal/cache/manager.go`   — the on-disk cache store,
  * `internal/cli/run.go`         — the task runner / single-flight scheduler.

Go maps are modelled as association lists whose construction never introduces
duplicate keys (matching map semantics for lookup and update); Go `int` is
modelled as `Int`; fallible Go functions returning `(T, error)` are modelled
with `Except String T` carrying the same message strings; the filesystem is
modelled as an explicit list of file records passed to each function that
inspects the disk.
-/

namespace Doctrus

/-- Task definition from the static task model (`config.Task`). -/
structure Task where
  command : List String := []
  dependsOn : List String := []
  inputs : List String := []
  outputs : List String := []
  cache : Bool := false
  parallel : Option Bool := none
  verbose : Option Bool := none
deriving DecidableEq

/-- Workspace definition (`config.Workspace`); tasks are a Go map, modelled as
an association list with distinct keys. -/
structure Workspace where
  path : String := ""
  tasks : List (String × Task) := []
deriving DecidableEq

/-- Whole configuration (`config.Config`), restricted to the fields the
resolution, tracking and scheduling core reads. -/
structure Config where
  workspaces : List (String × Workspace) := []
deriving DecidableEq

/-- Association-list lookup modelling Go map indexing (first binding wins;
the lists built in this development never hold duplicate keys). -/
def alookup {β : Type} (l : List (String × β)) (k : String) : Option β :=
  match l with
  | [] => none
  | (k', v) :: rest => if k' = k then some v else alookup rest k

/-- Config.GetWorkspace. -/
def getWorkspace (cfg : Config) (name : String) : Option Workspace :=
  alookup cfg.workspaces name

/-- Config.GetTask. -/
def getTask (cfg : Config) (workspaceName taskName : String) : Option Task :=
  match getWorkspace cfg workspaceName with
  | none => none
  | some ws => alookup ws.tasks taskName

/-- Splitting a character list at a separator character; the recursion mirrors
Go `strings.Split` with a one-character separator (always returns at least one
piece, empty pieces included). -/
def splitChars (sep : Char) : List Char → List (List Char)
  | [] => [[]]
  | c :: rest =>
    if c = sep then [] :: splitChars sep rest
    else
      match splitChars sep rest with
      | [] => [[c]]
      | p :: ps => (c :: p) :: ps

/-- Go strings.Split(s, ":"), as used to parse task keys and dependency
references. -/
def splitColon (s : String) : List String :=
  (splitChars ':' s.data).map (fun l => String.mk l)

/-- The canonical serialized TaskKey, fmt.Sprintf("%s:%s", workspace, task). -/
def taskKey (workspaceName taskName : String) : String :=
  workspaceName ++ ":" ++ taskName

/-- Go filepath.IsAbs for slash paths (nonempty and starting with '/'). -/
def isAbsPath (p : String) : Bool :=
  match p.data with
  | [] => false
  | c :: _ => c = '/'

/-- Go filepath.Join for the already-clean paths this development uses
(no trailing slashes, no dot segments). -/
def joinPath (base p : String) : String :=
  if base = "" then p else base ++ "/" ++ p

/-- Manager.resolveWorkspacePath: absolute workspace paths are kept, relative
ones are joined onto the manager base path (filepath.Abs of a join whose base
is already absolute is the join itself in this path model). -/
def resolveWorkspacePath (basePath workspacePath : String) : String :=
  if isAbsPath workspacePath then workspacePath else joinPath basePath workspacePath

/-- Byte-lexicographic comparison of character lists (UTF-8 byte order agrees
with code-point order, so this is the order Go's sort.Strings uses). -/
def listLexLe : List Char → List Char → Bool
  | [], _ => true
  | _ :: _, [] => false
  | a :: as, b :: bs =>
    if a.val.toNat < b.val.toNat then true
    else if b.val.toNat < a.val.toNat then false
    else listLexLe as bs

/-- Lexicographic order on strings, as used by Go sort.Strings and sort.Slice
comparators. -/
def strLe (a b : String) : Bool :=
  listLexLe a.data b.data

/-- Insertion step of the sorting used to model Go sort.Strings. -/
def insertSorted (x : String) : List String → List String
  | [] => [x]
  | y :: ys => if strLe x y then x :: y :: ys else y :: insertSorted x ys

/-- Go sort.Strings (ascending byte-lexicographic; sorting is by insertion,
which agrees with any correct sort on String since the order is total). -/
def sortStrings : List String → List String
  | [] => []
  | x :: xs => insertSorted x (sortStrings xs)

/-- workspace.TaskExecution. -/
structure TaskExecution where
  workspaceName : String
  taskName : String
  task : Task
  workspace : Workspace
  absPath : String
deriving DecidableEq

/-- Manager.ResolveTaskExecution. -/
def resolveTaskExecution (cfg : Config) (basePath workspaceName taskName : String) :
    Except String TaskExecution :=
  match getWorkspace cfg workspaceName with
  | none => .error ("workspace " ++ workspaceName ++ " not found")
  | some ws =>
    match getTask cfg workspaceName taskName with
    | none => .error ("task " ++ taskName ++ " not found in workspace " ++ workspaceName)
    | some task =>
      .ok { workspaceName := workspaceName, taskName := taskName, task := task,
            workspace := ws, absPath := resolveWorkspacePath basePath ws.path }

/-- Parsing one entry of depends_on inside buildDependencyGraph: a bare name
resolves against the current workspace, "ws:name" against the named workspace,
and more than one separator is malformed. -/
def parseDepRef (currentWorkspace dep : String) : Except String (String × String) :=
  match splitColon dep with
  | [d] => .ok (currentWorkspace, d)
  | [dw, dt] => .ok (dw, dt)
  | _ => .error ("invalid dependency format: " ++ dep)

/-- graph[depKey] = append(graph[depKey], currentKey): append a dependent to
the adjacency list of a dependency, inserting the key on first use. -/
def addDependent (g : List (String × List String)) (depKey currentKey : String) :
    List (String × List String) :=
  match g with
  | [] => [(depKey, [currentKey])]
  | (k, l) :: rest =>
    if k = depKey then (k, l ++ [currentKey]) :: rest
    else (k, l) :: addDependent rest depKey currentKey

/-- indegrees[currentKey]++ on a Go map (inserts 1 when the key is absent). -/
def bumpIndegree (ind : List (String × Int)) (k : String) : List (String × Int) :=
  match ind with
  | [] => [(k, 1)]
  | (k', v) :: rest =>
    if k' = k then (k', v + 1) :: rest
    else (k', v) :: bumpIndegree rest k

/-- The dependency loop of buildDependencyGraph for one discovered task:
verify each dependency, add the edge dependency → current, bump the current
task's indegree, and enqueue unvisited dependencies at the back of the queue. -/
def buildEdges (cfg : Config) (currentWorkspace currentKey : String)
    (visited : List String) :
    List String → List (String × List String) → List (String × Int) → List String →
    Except String (List (String × List String) × List (String × Int) × List String)
  | [], g, ind, queue => .ok (g, ind, queue)
  | dep :: rest, g, ind, queue =>
    match parseDepRef currentWorkspace dep with
    | .error e => .error e
    | .ok (dw, dt) =>
      let depKey := taskKey dw dt
      match getTask cfg dw dt with
      | none => .error ("dependency " ++ depKey ++ " not found")
      | some _ =>
        let g' := addDependent g depKey currentKey
        let ind' := bumpIndegree ind currentKey
        let queue' := if depKey ∈ visited then queue else queue ++ [depKey]
        buildEdges cfg currentWorkspace currentKey visited rest g' ind' queue'

/-- Total number of depends_on entries over the whole configuration. -/
def totalDeps (cfg : Config) : Nat :=
  (cfg.workspaces.map (fun ws => (ws.2.tasks.map (fun t => t.2.dependsOn.length)).sum)).sum

/-- Total number of tasks over the whole configuration. -/
def totalTasks (cfg : Config) : Nat :=
  (cfg.workspaces.map (fun ws => ws.2.tasks.length)).sum

/-- The BFS discovery loop of buildDependencyGraph.  The fuel argument only
bounds the iteration count: every loop iteration dequeues one key, keys are
enqueued once at the start plus once per depends_on entry of a first-visited
task, so `totalDeps cfg + totalTasks cfg + 2` iterations always suffice and
the zero-fuel branch is unreachable from `buildDependencyGraph`. -/
def buildLoop (cfg : Config) :
    Nat → List String → List String → List (String × List String) → List (String × Int) →
    Except String (List (String × List String) × List (String × Int))
  | 0, _, _, _, _ => .error "dependency discovery did not terminate"
  | _ + 1, [], _, g, ind => .ok (g, ind)
  | fuel + 1, current :: rest, visited, g, ind =>
    if current ∈ visited then buildLoop cfg fuel rest visited g ind
    else
      match splitColon current with
      | [w, t] =>
        match getTask cfg w t with
        | none => .error ("task " ++ t ++ " not found in workspace " ++ w)
        | some task =>
          let ind' := if (alookup ind current).isSome then ind else ind ++ [(current, 0)]
          match buildEdges cfg w current (current :: visited) task.dependsOn g ind' rest with
          | .error e => .error e
          | .ok (g', ind'', queue') => buildLoop cfg fuel queue' (current :: visited) g' ind''
      | _ => .error ("invalid task key format: " ++ current)

/-- Manager.buildDependencyGraph: BFS from the target, producing the adjacency
map dependency → dependents and the indegree count per discovered key. -/
def buildDependencyGraph (cfg : Config) (workspaceName taskName : String) :
    Except String (List (String × List String) × List (String × Int)) :=
  buildLoop cfg (totalDeps cfg + totalTasks cfg + 2) [taskKey workspaceName taskName] [] [] []

/-- indegrees[dependent]-- on a Go map (inserts -1 when the key is absent). -/
def mapDec (ind : List (String × Int)) (k : String) : List (String × Int) :=
  match ind with
  | [] => [(k, -1)]
  | (k', v) :: rest =>
    if k' = k then (k', v - 1) :: rest
    else (k', v) :: mapDec rest k

/-- The dependent-update loop of one Kahn iteration: decrement the indegree of
every dependent of the dequeued key and enqueue those that reach zero. -/
def processDeps (ind : List (String × Int)) (queue : List String) :
    List String → List (String × Int) × List String
  | [] => (ind, queue)
  | d :: rest =>
    let ind' := mapDec ind d
    let queue' := if alookup ind' d = some 0 then queue ++ [d] else queue
    processDeps ind' queue' rest

/-- Number of association entries whose indegree is still positive; together
with the queue length this measures the Kahn loop (decrements only lower
values, and every enqueue moves one entry out of the positive set), so
`queue.length + readyCount ind` strictly decreases every iteration and the
fuel passed by `topologicalSort` is never exhausted. -/
def readyCount (ind : List (String × Int)) : Nat :=
  (ind.filter (fun p => 0 < p.2)).length

/-- The Kahn processing loop of Manager.topologicalSort: sort the ready queue
lexicographically, dequeue its head, resolve that key to an execution, then
decrement dependents and enqueue the newly ready ones.  Emits the dequeued
keys in order (Go collects the corresponding TaskExecutions, which are a
function of the key via ResolveTaskExecution).  The fuel argument only bounds
the iteration count; `topologicalSort` passes one more than the measure
`queue.length + readyCount ind`, which strictly decreases every iteration, so
the zero-fuel branch is unreachable. -/
def kahnLoop (cfg : Config) (basePath : String) (g : List (String × List String)) :
    Nat → List (String × Int) → List String → Except String (List String)
  | 0, _, _ => .error "kahn loop out of fuel"
  | fuel + 1, ind, queue =>
    match sortStrings queue with
    | [] => .ok []
    | current :: rest =>
      match splitColon current with
      | [w, t] =>
        match resolveTaskExecution cfg basePath w t with
        | .error e => .error ("failed to resolve task execution for " ++ current ++ ": " ++ e)
        | .ok _ =>
          let s := processDeps ind rest ((alookup g current).getD [])
          match kahnLoop cfg basePath g fuel s.1 s.2 with
          | .error e => .error e
          | .ok out => .ok (current :: out)
      | _ => .error ("invalid task key: " ++ current)

/-- Manager.topologicalSort: seed the queue with the zero-indegree keys, run
the Kahn loop, and report a cycle when fewer keys were emitted than were
discovered (len(indegrees) is captured before the loop mutates the map). -/
def topologicalSort (cfg : Config) (basePath : String)
    (g : List (String × List String)) (ind : List (String × Int)) :
    Except String (List String) :=
  let queue := (ind.filter (fun p => p.2 = 0)).map Prod.fst
  match kahnLoop cfg basePath g (queue.length + readyCount ind + 1) ind queue with
  | .error e => .error e
  | .ok emitted =>
    if emitted.length = ind.length then .ok emitted
    else .error "circular dependency detected in dependency graph"

/-- Manager.ResolveDependencies (Kahn version): verify the target exists, build
the dependency graph, topologically sort it.  The plan is returned as the list
of emitted TaskKeys. -/
def resolveDependencies (cfg : Config) (basePath workspaceName taskName : String) :
    Except String (List String) :=
  match getTask cfg workspaceName taskName with
  | none => .error ("task " ++ taskName ++ " not found in workspace " ++ workspaceName)
  | some _ =>
    match buildDependencyGraph cfg workspaceName taskName with
    | .error e => .error e
    | .ok (g, ind) => topologicalSort cfg basePath g ind

/-- One entry of the explicit filesystem model.  `content` stands for the file
bytes; the sha256 digest of a file is modelled by its content (an idealized
collision-free digest: two files have equal digests iff equal bytes).
`statOk` models os.Stat succeeding, `readOk` models os.Open and reading
succeeding, `regular` models info.Mode().IsRegular(), `dir` models
info.IsDir(). -/
structure FSFile where
  path : String
  content : String := ""
  regular : Bool := true
  dir : Bool := false
  statOk : Bool := true
  readOk : Bool := true
  modTime : Int := 0
deriving DecidableEq

/-- Look a path up in the filesystem model (first entry wins; the filesystems
used in this development list each path once). -/
def findFile (fs : List FSFile) (p : String) : Option FSFile :=
  fs.find? (fun f => f.path == p)

/-- Modelled from the spec: segment-level wildcard matching of the third-party
doublestar glob library used by Tracker.globFiles (not part of this
repository's sources); `*` matches any run of characters inside one segment,
`?` matches one character, other characters are literals. -/
def segMatchF : Nat → List Char → List Char → Bool
  | 0, _, _ => false
  | _ + 1, [], [] => true
  | fuel + 1, '*' :: ps, [] => segMatchF fuel ps []
  | fuel + 1, '*' :: ps, c :: s =>
    segMatchF fuel ps (c :: s) || segMatchF fuel ('*' :: ps) s
  | _ + 1, '?' :: _, [] => false
  | fuel + 1, '?' :: ps, _ :: s => segMatchF fuel ps s
  | fuel + 1, p :: ps, c :: s => (p == c) && segMatchF fuel ps s
  | _ + 1, _ :: _, [] => false
  | _ + 1, [], _ :: _ => false

/-- Wildcard matching of one pattern segment against one path segment (every
recursive call of `segMatchF` lowers pattern length plus text length, so the
fuel is never exhausted). -/
def segMatch (p s : List Char) : Bool :=
  segMatchF (p.length + s.length + 1) p s

/-- Modelled from the spec: path matching of the doublestar library, slash
segment by slash segment; a `**` pattern segment matches any number of path
segments (recursive matching), other pattern segments match via `segMatch`. -/
def globSegsF : Nat → List (List Char) → List (List Char) → Bool
  | 0, _, _ => false
  | _ + 1, [], [] => true
  | _ + 1, [], _ :: _ => false
  | fuel + 1, p :: ps, [] => if p = ['*', '*'] then globSegsF fuel ps [] else false
  | fuel + 1, p :: ps, s :: ss =>
    if p = ['*', '*'] then globSegsF fuel ps (s :: ss) || globSegsF fuel (p :: ps) ss
    else segMatch p s && globSegsF fuel ps ss

/-- Modelled from the spec: doublestar.FilepathGlob pattern matching against
one path, supporting recursive `**` matching (every recursive call of
`globSegsF` lowers the combined segment count, so the fuel is never
exhausted). -/
def globMatch (pattern p : String) : Bool :=
  globSegsF (pattern.data.length + p.data.length + 2)
    (splitChars '/' pattern.data) (splitChars '/' p.data)

/-- Tracker.globFiles: the paths matching a glob pattern that stat to regular
files; entries that cannot be stat'd and non-regular entries are skipped. -/
def globFiles (fs : List FSFile) (pattern : String) : List String :=
  (fs.filter (fun f => globMatch pattern f.path && f.statOk && f.regular)).map (fun f => f.path)

/-- Tracker.resolveGlobPattern: absolute patterns are globbed as is, relative
patterns are joined onto the workspace base path. -/
def resolveGlobPattern (fs : List FSFile) (basePath pattern : String) : List String :=
  if isAbsPath pattern then globFiles fs pattern
  else globFiles fs (joinPath basePath pattern)

/-- deps.FileInfo: one file fingerprint. -/
structure FileInfo where
  path : String
  hash : String
  modTime : Int := 0
  size : Int := 0
deriving DecidableEq

/-- deps.TaskState: the recorded state of one task run. -/
structure TaskState where
  taskKey : String
  inputHashes : List FileInfo := []
  outputs : List FileInfo := []
  lastRun : Int := 0
  success : Bool := false
deriving DecidableEq

/-- Go filepath.Rel(base, p) with the code's fallback: computeFileInfo keeps
the full path when Rel fails.  In this path model, paths strictly under the
base lose the base prefix, the base itself becomes ".", anything else is kept
whole. -/
def relPath (base p : String) : String :=
  if p = base then "."
  else if (base.data ++ ['/']).isPrefixOf p.data then
    String.mk (p.data.drop (base.data.length + 1))
  else p

/-- Tracker.computeFileHash: sha256 over the file bytes, modelled by the
content itself; fails when the file cannot be opened or read. -/
def computeFileHash (fs : List FSFile) (p : String) : Except String String :=
  match findFile fs p with
  | none => .error ("open " ++ p ++ ": no such file or directory")
  | some f => if f.readOk then .ok f.content else .error ("open " ++ p ++ ": permission denied")

/-- Tracker.computeFileInfo: stat the file, reject directories, hash the
content, and record the path relative to the tracker base path. -/
def computeFileInfo (fs : List FSFile) (trackerBase p : String) : Except String FileInfo :=
  match findFile fs p with
  | none => .error ("stat " ++ p ++ ": no such file or directory")
  | some f =>
    if !f.statOk then .error ("stat " ++ p ++ ": permission denied")
    else if f.dir then .error ("path is a directory: " ++ p)
    else
      match computeFileHash fs p with
      | .error e => .error e
      | .ok h =>
        .ok { path := relPath trackerBase p, hash := h, modTime := f.modTime,
              size := (f.content.length : Int) }

/-- Insertion step of the fingerprint sort. -/
def insertByPath (x : FileInfo) : List FileInfo → List FileInfo
  | [] => [x]
  | y :: ys => if strLe x.path y.path then x :: y :: ys else y :: insertByPath x ys

/-- Sorting fingerprints by path, modelling the sort.Slice calls in
computeInputHashes and computeOutputHashes. -/
def sortByPath : List FileInfo → List FileInfo
  | [] => []
  | x :: xs => insertByPath x (sortByPath xs)

/-- The per-match loop of computeInputHashes: any failing fingerprint aborts
with an error (wrapped like the Go message). -/
def infosFor (fs : List FSFile) (trackerBase : String) :
    List String → Except String (List FileInfo)
  | [] => .ok []
  | p :: rest =>
    match computeFileInfo fs trackerBase p with
    | .error e => .error ("failed to compute hash for " ++ p ++ ": " ++ e)
    | .ok info =>
      match infosFor fs trackerBase rest with
      | .error e => .error e
      | .ok l => .ok (info :: l)

/-- The per-pattern loop of computeInputHashes. -/
def inputInfosLoop (fs : List FSFile) (trackerBase absPath : String) :
    List String → Except String (List FileInfo)
  | [] => .ok []
  | pattern :: rest =>
    match infosFor fs trackerBase (resolveGlobPattern fs absPath pattern) with
    | .error e => .error e
    | .ok l1 =>
      match inputInfosLoop fs trackerBase absPath rest with
      | .error e => .error e
      | .ok l2 => .ok (l1 ++ l2)

/-- Tracker.computeInputHashes: fingerprint every file matching an input
pattern, failing on the first file whose fingerprint cannot be computed,
sorted by relative path. -/
def computeInputHashes (fs : List FSFile) (trackerBase : String) (ex : TaskExecution) :
    Except String (List FileInfo) :=
  match inputInfosLoop fs trackerBase ex.absPath ex.task.inputs with
  | .error e => .error e
  | .ok l => .ok (sortByPath l)

/-- The per-match loop of computeOutputHashes: failing fingerprints are
silently dropped (continue). -/
def okInfosFor (fs : List FSFile) (trackerBase : String) : List String → List FileInfo
  | [] => []
  | p :: rest =>
    match computeFileInfo fs trackerBase p with
    | .error _ => okInfosFor fs trackerBase rest
    | .ok info => info :: okInfosFor fs trackerBase rest

/-- The per-pattern loop of computeOutputHashes. -/
def outputInfosLoop (fs : List FSFile) (trackerBase absPath : String) :
    List String → List FileInfo
  | [] => []
  | pattern :: rest =>
    okInfosFor fs trackerBase (resolveGlobPattern fs absPath pattern) ++
      outputInfosLoop fs trackerBase absPath rest

/-- Tracker.computeOutputHashes: like computeInputHashes but best-effort; glob
or fingerprint failures are tolerated by omission and the function always
produces a (sorted) list. -/
def computeOutputHashes (fs : List FSFile) (trackerBase : String) (ex : TaskExecution) :
    List FileInfo :=
  sortByPath (outputInfosLoop fs trackerBase ex.absPath ex.task.outputs)

/-- Tracker.ComputeTaskState. -/
def computeTaskState (fs : List FSFile) (trackerBase : String) (ex : TaskExecution)
    (success : Bool) (now : Int) : Except String TaskState :=
  match computeInputHashes fs trackerBase ex with
  | .error e => .error ("failed to compute input hashes: " ++ e)
  | .ok inputs =>
    .ok { taskKey := taskKey ex.workspaceName ex.taskName, inputHashes := inputs,
          outputs := computeOutputHashes fs trackerBase ex, lastRun := now,
          success := success }

/-- The index loop of Tracker.inputsMatch: pairwise path and digest equality. -/
def pairsMatch : List FileInfo → List FileInfo → Bool
  | [], [] => true
  | c :: cs, p :: ps => (c.path == p.path && c.hash == p.hash) && pairsMatch cs ps
  | _, _ => false

/-- Tracker.inputsMatch: equal length and pairwise equal paths and digests. -/
def inputsMatch (current previous : List FileInfo) : Bool :=
  (current.length == previous.length) && pairsMatch current previous

/-- Tracker.outputsExist: every recorded output path, joined back onto the
tracker base path, still exists on disk (only absence fails the check). -/
def outputsExist (fs : List FSFile) (trackerBase : String) (outputs : List FileInfo) : Bool :=
  outputs.all (fun o => (findFile fs (joinPath trackerBase o.path)).isSome)

/-- Tracker.ShouldRunTask, returning the Go (bool, error) pair. -/
def shouldRunTask (fs : List FSFile) (trackerBase : String) (ex : TaskExecution)
    (previousState : Option TaskState) : Bool × Option String :=
  match previousState with
  | none => (true, none)
  | some ps =>
    if !ps.success then (true, none)
    else
      match computeInputHashes fs trackerBase ex with
      | .error e => (true, some ("failed to compute input hashes: " ++ e))
      | .ok currentInputs =>
        if !inputsMatch currentInputs ps.inputHashes then (true, none)
        else if !outputsExist fs trackerBase ps.outputs then (true, none)
        else (false, none)

/-- cache.CacheEntry. -/
structure CacheEntry where
  taskKey : String
  state : TaskState
  createdAt : Int
  ttl : Int := 0
deriving DecidableEq

/-- The characters Manager.getCachePath strips from "workspace:task.json" to
obtain a filesystem-safe file name. -/
def strippedCacheChar (c : Char) : Bool :=
  c ∈ [':', '/', '\\', '*', '?', '"', '<', '>', '|']

/-- cache.Manager.getCachePath: the record file for a TaskKey is
cacheDir/<taskKey with unsafe characters removed>.json. -/
def getCachePath (cacheDir tk : String) : String :=
  joinPath cacheDir (String.mk ((tk ++ ".json").data.filter (fun c => !strippedCacheChar c)))

/-- Writing one file of the cache directory (os.WriteFile semantics:
overwrite if present, create otherwise). -/
def storeWrite (store : List (String × CacheEntry)) (p : String) (e : CacheEntry) :
    List (String × CacheEntry) :=
  match store with
  | [] => [(p, e)]
  | (p', e') :: rest =>
    if p' = p then (p', e) :: rest else (p', e') :: storeWrite rest p e

/-- Removing one file of the cache directory (os.Remove, absence tolerated). -/
def storeRemove (store : List (String × CacheEntry)) (p : String) :
    List (String × CacheEntry) :=
  store.filter (fun q => !(q.1 == p))

/-- cache.Manager.Set with the store made explicit. -/
def cacheSet (cacheDir : String) (store : List (String × CacheEntry)) (tk : String)
    (st : TaskState) (ttl now : Int) : List (String × CacheEntry) :=
  storeWrite store (getCachePath cacheDir tk)
    { taskKey := tk, state := st, createdAt := now, ttl := ttl }

/-- cache.Manager.Delete with the store made explicit. -/
def cacheDelete (cacheDir : String) (store : List (String × CacheEntry)) (tk : String) :
    List (String × CacheEntry) :=
  storeRemove store (getCachePath cacheDir tk)

/-- cache.Manager.Get with the store made explicit: a missing record is a
miss, a record past its positive TTL is a miss that lazily deletes the
record, everything else returns the stored state. -/
def cacheGet (cacheDir : String) (store : List (String × CacheEntry)) (tk : String)
    (now : Int) : Option TaskState × List (String × CacheEntry) :=
  match alookup store (getCachePath cacheDir tk) with
  | none => (none, store)
  | some entry =>
    if 0 < entry.ttl ∧ entry.ttl < now - entry.createdAt then
      (none, cacheDelete cacheDir store tk)
    else (some entry.state, store)

/-- docker.ExecutionResult restricted to what runExecution inspects. -/
structure ExecResult where
  exitCode : Int := 0
  execError : Bool := false
deriving DecidableEq

/-- The observable effects of one CLI.runExecution call: its return value, how
often the Executor ran, how often the cache was read and written, and the
cache contents afterwards. -/
structure RunEffects where
  outcome : Option String
  executorCalls : Nat
  cacheReads : Nat
  cacheWrites : Nat
  store : List (String × CacheEntry)
deriving DecidableEq

/-- CLI.runExecution: compound tasks (empty command) succeed immediately;
otherwise consult the cache (unless disabled), decide via ShouldRunTask
(unless forced), short-circuit on skip or dry-run, invoke the Executor, and
on success persist the recomputed state when the task is cacheable.  Logging
is omitted; `outcome` is the function's error return (none = nil). -/
def runExecution (executor : TaskExecution → ExecResult) (fs : List FSFile)
    (cacheDir trackerBase : String) (store : List (String × CacheEntry))
    (force skipCache dryRun : Bool) (now : Int) (ex : TaskExecution) : RunEffects :=
  if ex.task.command.isEmpty then
    { outcome := none, executorCalls := 0, cacheReads := 0, cacheWrites := 0, store := store }
  else
    let tk := taskKey ex.workspaceName ex.taskName
    let useCache := !skipCache && ex.task.cache
    let looked := cacheGet cacheDir store tk now
    let previousState := if useCache then looked.1 else none
    let store1 := if useCache then looked.2 else store
    let reads : Nat := if useCache then 1 else 0
    let sr := if force || skipCache then (true, none)
              else shouldRunTask fs trackerBase ex previousState
    match sr.2 with
    | some e =>
      { outcome := some ("failed to check if task should run: " ++ e),
        executorCalls := 0, cacheReads := reads, cacheWrites := 0, store := store1 }
    | none =>
      if !sr.1 then
        { outcome := none, executorCalls := 0, cacheReads := reads, cacheWrites := 0,
          store := store1 }
      else if dryRun then
        { outcome := none, executorCalls := 0, cacheReads := reads, cacheWrites := 0,
          store := store1 }
      else
        let result := executor ex
        if result.execError && result.exitCode == 0 then
          { outcome := some "execution error", executorCalls := 1, cacheReads := reads,
            cacheWrites := 0, store := store1 }
        else if result.exitCode != 0 then
          { outcome := some ("task failed with exit code " ++ toString result.exitCode),
            executorCalls := 1, cacheReads := reads, cacheWrites := 0, store := store1 }
        else if ex.task.cache then
          match computeTaskState fs trackerBase ex true now with
          | .error _ =>
            { outcome := none, executorCalls := 1, cacheReads := reads, cacheWrites := 0,
              store := store1 }
          | .ok st =>
            { outcome := none, executorCalls := 1, cacheReads := reads, cacheWrites := 1,
              store := cacheSet cacheDir store1 tk st 0 now }
        else
          { outcome := none, executorCalls := 1, cacheReads := reads, cacheWrites := 0,
            store := store1 }

/-- CLI.runTaskInWorkspace with the execution phase abstracted: dependencies
are resolved first and any resolution failure returns before the runner is
invoked, so the run function (and its execution count) is only reached on a
successful plan. -/
def runTaskInWorkspace (run : List String → Option String × Nat) (cfg : Config)
    (basePath workspaceName taskName : String) : Option String × Nat :=
  match resolveDependencies cfg basePath workspaceName taskName with
  | .error e => (some ("failed to resolve dependencies: " ++ e), 0)
  | .ok plan => run plan

/-- Per-key state of the taskRunner state table: `running` while the owning
call executes, `done` with the stored error afterwards (cli.taskState with
the condition variable abstracted away). -/
inductive RunnerPhase where
  | running : RunnerPhase
  | done : Option String → RunnerPhase
deriving DecidableEq

/-- One atomic transition of taskRunner.RunTask, as performed under r.mu:
`start` claims an absent key (the caller becomes the executing owner),
`finish` records the owner's result and wakes waiters, `observe` is a caller
reading the stored result of a completed key. -/
inductive RunnerEvent where
  | start : String → RunnerEvent
  | finish : String → Option String → RunnerEvent
  | observe : String → Option String → RunnerEvent
deriving DecidableEq

/-- Guarded small-step semantics of the state table: a step is allowed only
when its mutex-protected precondition holds in the current table. -/
def runnerStep (m : List (String × RunnerPhase)) :
    RunnerEvent → Option (List (String × RunnerPhase))
  | .start k =>
    match alookup m k with
    | none => some (m ++ [(k, .running)])
    | some _ => none
  | .finish k r =>
    match alookup m k with
    | some .running =>
      some (m.map (fun q => if q.1 = k then (q.1, RunnerPhase.done r) else q))
    | _ => none
  | .observe k r =>
    match alookup m k with
    | some (.done r') => if r' = r then some m else none
    | _ => none

/-- Running a whole interleaving (one top-level invocation) from a state
table. -/
def runnerTrace (m : List (String × RunnerPhase)) :
    List RunnerEvent → Option (List (String × RunnerPhase))
  | [] => some m
  | e :: rest =>
    match runnerStep m e with
    | none => none
    | some m' => runnerTrace m' rest

/-- A list of events is a possible interleaving of one top-level invocation
when it executes from the fresh (empty) state table. -/
def validTrace (events : List RunnerEvent) : Prop :=
  (runnerTrace [] events).isSome

/-- Keys of an association list. -/
def keysOf {β : Type} (l : List (String × β)) : List String :=
  l.map Prod.fst

/-- Adjacency list of a key in the dependency graph (dependents of a
dependency; absent keys have no dependents). -/
def adj (g : List (String × List String)) (k : String) : List String :=
  (alookup g k).getD []

/-- Number of occurrences of a key as a target (dependent) across all
adjacency lists; by construction of buildDependencyGraph this is the exact
indegree of the key. -/
def countTargets (g : List (String × List String)) (k : String) : Nat :=
  ((g.map Prod.snd).flatten).count k

/-- Number of dependency edges into `k` whose source lies in `rem`; the Kahn
loop invariant states that every stored indegree equals this count over the
not-yet-emitted keys. -/
def edgesFromRem (g : List (String × List String)) (rem : List String) (k : String) : Nat :=
  (rem.map (fun u => (adj g u).count k)).sum

/-- Specification-side reading of "the current input fingerprint sequence
differs from the stored one": different length, or different path or digest at
some position. -/
def fingerprintsDiffer (cur prev : List FileInfo) : Prop :=
  cur.length ≠ prev.length ∨
    ∃ i : Nat, ∃ h1 : i < cur.length, ∃ h2 : i < prev.length,
      (cur.get ⟨i, h1⟩).path ≠ (prev.get ⟨i, h2⟩).path ∨
      (cur.get ⟨i, h1⟩).hash ≠ (prev.get ⟨i, h2⟩).hash

/-- Specification-side description of a glob expansion: every path produced by
any of the patterns, in pattern order. -/
def globExpansion (fs : List FSFile) (absPath : String) (patterns : List String) :
    List String :=
  (patterns.map (fun pat => resolveGlobPattern fs absPath pat)).flatten

/-- Specification-side description of best-effort fingerprinting: fingerprint
every matched path, drop the ones that fail, sort by recorded path. -/
def specFingerprints (fs : List FSFile) (trackerBase absPath : String)
    (patterns : List String) : List FileInfo :=
  sortByPath ((globExpansion fs absPath patterns).filterMap
    (fun p => (computeFileInfo fs trackerBase p).toOption))

/-- The tie-break scenario of the spec: frontend{install, build depends_on
install}, backend{build}, and frontend:build additionally depends on
backend:build. -/
def cfgScenario : Config :=
  { workspaces := [
      ("frontend", { path := "frontend", tasks := [
        ("install", { command := ["npm", "install"] }),
        ("build", { command := ["npm", "run", "build"],
                    dependsOn := ["install", "backend:build"] })] }),
      ("backend", { path := "backend", tasks := [
        ("build", { command := ["make", "build"] })] })] }

/-- A two-task dependency cycle (a depends on b, b depends on a). -/
def cfgCycleTwo : Config :=
  { workspaces := [("w", { path := ".", tasks := [
      ("a", { command := ["cmd-a"], dependsOn := ["b"] }),
      ("b", { command := ["cmd-b"], dependsOn := ["a"] })] })] }

/-- A three-task dependency cycle x → y → z → x. -/
def cfgCycleThree : Config :=
  { workspaces := [("w", { path := ".", tasks := [
      ("x", { command := ["cmd-x"], dependsOn := ["y"] }),
      ("y", { command := ["cmd-y"], dependsOn := ["z"] }),
      ("z", { command := ["cmd-z"], dependsOn := ["x"] })] })] }

/-- A single dependency-free task (an edgeless dependency graph). -/
def cfgSingle : Config :=
  { workspaces := [("w", { path := ".", tasks := [("a", { command := ["cmd"] })] })] }

/-- Filesystem fixture: two nested TypeScript inputs, a dist directory and one
build output under the frontend workspace of /repo. -/
def fsFix : List FSFile := [
  { path := "/repo/frontend/src/a.ts", content := "AAA" },
  { path := "/repo/frontend/src/deep/b.ts", content := "BBB" },
  { path := "/repo/frontend/dist", regular := false, dir := true },
  { path := "/repo/frontend/dist/out.js", content := "OUT" }]

/-- A cacheable build task with recursive input and output globs. -/
def taskFix : Task :=
  { command := ["build"], inputs := ["src/**/*.ts"], outputs := ["dist/**/*.js"],
    cache := true }

/-- The execution of taskFix in the frontend workspace of /repo. -/
def exFix : TaskExecution :=
  { workspaceName := "frontend", taskName := "build", task := taskFix,
    workspace := { path := "frontend" }, absPath := "/repo/frontend" }

/-- The task state computeTaskState records for taskFix on fsFix at time 7. -/
def stFix : TaskState :=
  { taskKey := "frontend:build",
    inputHashes := [
      { path := "frontend/src/a.ts", hash := "AAA", modTime := 0, size := 3 },
      { path := "frontend/src/deep/b.ts", hash := "BBB", modTime := 0, size := 3 }],
    outputs := [{ path := "frontend/dist/out.js", hash := "OUT", modTime := 0, size := 3 }],
    lastRun := 7, success := true }

/-- Filesystem where the only input file stats fine but cannot be opened for
reading. -/
def fsUnreadable : List FSFile :=
  [{ path := "/repo/frontend/src/a.ts", content := "AAA", readOk := false }]

/-- A task whose OUTPUT glob matches the unreadable file of fsUnreadable. -/
def exUnreadableOut : TaskExecution :=
  { workspaceName := "frontend", taskName := "collect",
    task := { command := ["collect"], outputs := ["src/**/*.ts"] },
    workspace := { path := "frontend" }, absPath := "/repo/frontend" }

/-- Single-input fixture for the fingerprint-path claims. -/
def fsOneInput : List FSFile := [{ path := "/repo/frontend/a.txt", content := "A" }]

/-- A task of the frontend workspace whose input glob matches a.txt. -/
def exOneInput : TaskExecution :=
  { workspaceName := "frontend", taskName := "build",
    task := { command := ["build"], inputs := ["*.txt"], cache := true },
    workspace := { path := "frontend" }, absPath := "/repo/frontend" }

theorem listLexLe_iff (x y : List Char) : listLexLe x y = true ↔ ¬ y < x := by
  induction x generalizing y with
  | nil =>
    refine ⟨fun _ hlt => ?_, fun _ => rfl⟩
    cases hlt
  | cons a as ih =>
    cases y with
    | nil =>
      simp only [listLexLe, Bool.false_eq_true, false_iff, not_not]
      exact List.Lex.nil
    | cons b bs =>
      show (if a.val.toNat < b.val.toNat then true
            else if b.val.toNat < a.val.toNat then false
            else listLexLe as bs) = true ↔ ¬ List.Lex (· < ·) (b :: bs) (a :: as)
      rcases Nat.lt_trichotomy a.val.toNat b.val.toNat with hab | heq | hba
      · rw [if_pos hab]
        simp only [true_iff]
        intro h
        cases h with
        | rel hr =>
          have hlt : b.val.toNat < a.val.toNat := Char.lt_iff_val_lt_val.mp hr
          omega
        | cons h' => omega
      · have hchar : a = b := Char.ext (by
          have hv : a.val.toNat = b.val.toNat := heq
          exact UInt32.toNat.inj hv)
        subst hchar
        rw [if_neg (by omega), if_neg (by omega)]
        rw [ih bs]
        constructor
        · intro h hlex
          cases hlex with
          | rel hr => exact absurd hr (lt_irrefl a)
          | cons h' => exact h h'
        · intro h hlex
          exact h (List.Lex.cons hlex)
      · rw [if_neg (by omega), if_pos hba]
        simp only [Bool.false_eq_true, false_iff, not_not]
        exact List.Lex.rel (Char.lt_iff_val_lt_val.mpr hba)

theorem strLe_iff (a b : String) : strLe a b = true ↔ a ≤ b := by
  rw [strLe, listLexLe_iff]
  constructor
  · intro h
    exact le_of_not_lt (fun hlt => h (String.lt_iff_toList_lt.mp hlt))
  · intro h hlt
    exact absurd (String.lt_iff_toList_lt.mpr hlt) (not_lt_of_le h)

theorem insertSorted_perm (x : String) (l : List String) :
    (insertSorted x l).Perm (x :: l) := by
  induction l with
  | nil => simp [insertSorted]
  | cons y ys ih =>
    rw [insertSorted]
    by_cases h : strLe x y = true
    · rw [if_pos h]
    · rw [if_neg h]
      exact (ih.cons y).trans (List.Perm.swap x y ys)

theorem sortStrings_perm (l : List String) : (sortStrings l).Perm l := by
  induction l with
  | nil => simp [sortStrings]
  | cons x xs ih =>
    rw [sortStrings]
    exact (insertSorted_perm x (sortStrings xs)).trans (ih.cons x)

theorem insertSorted_sorted (x : String) (l : List String)
    (h : List.Sorted (fun a b : String => a ≤ b) l) :
    List.Sorted (fun a b : String => a ≤ b) (insertSorted x l) := by
  induction l with
  | nil => simp [insertSorted]
  | cons y ys ih =>
    rw [insertSorted]
    obtain ⟨hy, hys⟩ := List.sorted_cons.mp h
    by_cases hle : strLe x y = true
    · rw [if_pos hle]
      refine List.sorted_cons.mpr ⟨?_, h⟩
      intro b hb
      rcases List.mem_cons.mp hb with rfl | hb'
      · exact (strLe_iff x b).mp hle
      · exact le_trans ((strLe_iff x y).mp hle) (hy b hb')
    · rw [if_neg hle]
      have hyx : y ≤ x := by
        rcases le_total x y with hxy | hyx
        · exact absurd ((strLe_iff x y).mpr hxy) hle
        · exact hyx
      refine List.sorted_cons.mpr ⟨?_, ih hys⟩
      intro b hb
      have hb' : b ∈ x :: ys := (insertSorted_perm x ys).mem_iff.mp hb
      rcases List.mem_cons.mp hb' with rfl | hb''
      · exact hyx
      · exact hy b hb''

theorem sortStrings_sorted (l : List String) :
    List.Sorted (fun a b : String => a ≤ b) (sortStrings l) := by
  induction l with
  | nil => simp [sortStrings]
  | cons x xs ih =>
    rw [sortStrings]
    exact insertSorted_sorted x (sortStrings xs) ih

theorem readyCount_cons (k : String) (v : Int) (rest : List (String × Int)) :
    readyCount ((k, v) :: rest) = (if 0 < v then 1 else 0) + readyCount rest := by
  by_cases h : 0 < v <;> simp [readyCount, List.filter, h] <;> omega

theorem readyCount_mapDec_le (ind : List (String × Int)) (d : String) :
    readyCount (mapDec ind d) ≤ readyCount ind := by
  induction ind with
  | nil => simp [mapDec, readyCount]
  | cons hd rest ih =>
    obtain ⟨k, v⟩ := hd
    by_cases hk : k = d
    · subst hk
      rw [mapDec, if_pos rfl, readyCount_cons, readyCount_cons]
      have : (if 0 < v - 1 then 1 else 0) ≤ (if 0 < v then 1 else 0) := by
        by_cases h1 : 0 < v - 1
        · have h2 : 0 < v := by omega
          simp [h1, h2]
        · simp only [h1, if_false]
          omega
      omega
    · rw [mapDec, if_neg hk, readyCount_cons, readyCount_cons]
      omega

theorem readyCount_mapDec_lt (ind : List (String × Int)) (d : String)
    (h : alookup (mapDec ind d) d = some 0) :
    readyCount (mapDec ind d) < readyCount ind := by
  induction ind with
  | nil => simp [mapDec, alookup] at h
  | cons hd rest ih =>
    obtain ⟨k, v⟩ := hd
    by_cases hk : k = d
    · subst hk
      rw [mapDec, if_pos rfl] at h ⊢
      rw [alookup, if_pos rfl] at h
      have hv : v - 1 = 0 := Option.some_injective _ h
      have hv1 : v = 1 := by omega
      subst hv1
      rw [readyCount_cons, readyCount_cons]
      norm_num
    · rw [mapDec, if_neg hk] at h ⊢
      rw [alookup, if_neg hk] at h
      have hlt := ih h
      rw [readyCount_cons, readyCount_cons]
      omega

theorem processDeps_measure (deps : List String) (ind : List (String × Int))
    (queue : List String) :
    (processDeps ind queue deps).2.length + readyCount (processDeps ind queue deps).1 ≤
      queue.length + readyCount ind := by
  induction deps generalizing ind queue with
  | nil => simp [processDeps]
  | cons d rest ih =>
    simp only [processDeps]
    by_cases h : alookup (mapDec ind d) d = some 0
    · rw [if_pos h]
      have h1 := readyCount_mapDec_lt ind d h
      have h2 := ih (mapDec ind d) (queue ++ [d])
      simp only [List.length_append, List.length_cons, List.length_nil] at h2
      omega
    · rw [if_neg h]
      have h1 := readyCount_mapDec_le ind d
      have h2 := ih (mapDec ind d) queue
      omega

theorem kahnLoop_head_min (cfg : Config) (basePath : String)
    (g : List (String × List String)) (fuel : Nat) (ind : List (String × Int))
    (queue : List String) (c : String) (res : List String)
    (h : kahnLoop cfg basePath g fuel ind queue = .ok (c :: res)) :
    c ∈ queue ∧ ∀ x ∈ queue, c ≤ x := by
  cases fuel with
  | zero => exact absurd h (by simp [kahnLoop])
  | succ n =>
    rw [kahnLoop] at h
    split at h
    · exact absurd h (by simp)
    · rename_i current rest hq
      have hperm := sortStrings_perm queue
      rw [hq] at hperm
      have hsorted := sortStrings_sorted queue
      rw [hq] at hsorted
      have hc : c = current := by
        split at h
        · split at h
          · exact absurd h (by simp)
          · dsimp only at h
            split at h
            · exact absurd h (by simp)
            · simp only [Except.ok.injEq, List.cons.injEq] at h
              exact h.1.symm
        · exact absurd h (by simp)
      subst hc
      have hmem : c ∈ queue := hperm.mem_iff.mp (List.mem_cons_self c rest)
      refine ⟨hmem, fun x hx => ?_⟩
      have hx' : x ∈ c :: rest := hperm.mem_iff.mpr hx
      rcases List.mem_cons.mp hx' with hxc | hxr
      · exact le_of_eq hxc.symm
      · exact (List.sorted_cons.mp hsorted).1 x hxr

/-- C5: Kahn's algorithm breaks ties among simultaneously-ready nodes by
lexicographic order of the "workspace:task" string — whenever the loop emits a
key it is a lexicographic minimum of the current ready queue — and in
particular the frontend/backend scenario resolves to exactly
[backend:build, frontend:install, frontend:build]. -/
theorem claim5_lexicographic_tiebreak :
    (∀ (cfg : Config) (basePath : String) (g : List (String × List String))
        (fuel : Nat) (ind : List (String × Int)) (queue : List String)
        (c : String) (res : List String),
      kahnLoop cfg basePath g fuel ind queue = .ok (c :: res) →
      c ∈ queue ∧ ∀ x ∈ queue, c ≤ x) ∧
    resolveDependencies cfgScenario "/repo" "frontend" "build" =
      .ok ["backend:build", "frontend:install", "frontend:build"] := by
  constructor
  · exact fun cfg bp g fuel ind queue c res h => kahnLoop_head_min cfg bp g fuel ind queue c res h
  · rfl

theorem claim5_lexicographic_tiebreak_witness :
    ("w:a" : String) ∈ ["w:a"] ∧ ∀ x ∈ (["w:a"] : List String), "w:a" ≤ x :=
  claim5_lexicographic_tiebreak.1 cfgSingle "/repo" [] 2 [("w:a", 0)] ["w:a"] "w:a" [] rfl

/-- C10: a task with an empty command vector (compound task) makes
runExecution return success immediately: no Executor invocation, no cache
read, no cache write, and the cache store unchanged — for every combination
of force, skip-cache, dry-run, cache flag, executor and store. -/
theorem claim10_compound_task_immediate (executor : TaskExecution → ExecResult)
    (fs : List FSFile) (cacheDir trackerBase : String)
    (store : List (String × CacheEntry)) (force skipCache dryRun : Bool)
    (now : Int) (ex : TaskExecution) (h : ex.task.command = []) :
    runExecution executor fs cacheDir trackerBase store force skipCache dryRun now ex =
      { outcome := none, executorCalls := 0, cacheReads := 0, cacheWrites := 0,
        store := store } := by
  unfold runExecution
  simp [h]

theorem claim10_compound_task_immediate_witness :
    runExecution (fun _ => { exitCode := 1, execError := true }) [] "/cache" "/repo"
      [] true true true 0
      { workspaceName := "w", taskName := "all",
        task := { command := [], dependsOn := ["a"], cache := true },
        workspace := { path := "." }, absPath := "/repo" } =
      { outcome := none, executorCalls := 0, cacheReads := 0, cacheWrites := 0,
        store := [] } :=
  claim10_compound_task_immediate (fun _ => { exitCode := 1, execError := true })
    [] "/cache" "/repo" [] true true true 0
    { workspaceName := "w", taskName := "all",
      task := { command := [], dependsOn := ["a"], cache := true },
      workspace := { path := "." }, absPath := "/repo" } rfl

/-- C4 counterexample: the cycle error carries no representative cycle path —
two different cycles (a⇄b and x→y→z→x) produce the identical constant
diagnostic, which names none of the involved task keys. -/
theorem claim4_counterexample :
    resolveDependencies cfgCycleTwo "/repo" "w" "a" =
      .error "circular dependency detected in dependency graph" ∧
    resolveDependencies cfgCycleThree "/repo" "w" "x" =
      .error "circular dependency detected in dependency graph" :=
  ⟨rfl, rfl⟩

theorem alookup_storeWrite_ne {p1 p2 : String} (store : List (String × CacheEntry))
    (e : CacheEntry) (h : p1 ≠ p2) :
    alookup (storeWrite store p1 e) p2 = alookup store p2 := by
  induction store with
  | nil => simp [storeWrite, alookup, h]
  | cons hd rest ih =>
    obtain ⟨q, v⟩ := hd
    by_cases hq : q = p1
    · subst hq
      simp only [storeWrite, if_pos rfl, alookup]
      rw [if_neg h, if_neg h]
    · simp only [storeWrite, if_neg hq, alookup]
      by_cases hq2 : q = p2
      · rw [if_pos hq2, if_pos hq2]
      · rw [if_neg hq2, if_neg hq2]
        exact ih

theorem alookup_storeRemove_ne {p1 p2 : String} (store : List (String × CacheEntry))
    (h : p1 ≠ p2) :
    alookup (storeRemove store p1) p2 = alookup store p2 := by
  induction store with
  | nil => simp [storeRemove, alookup]
  | cons hd rest ih =>
    obtain ⟨q, v⟩ := hd
    by_cases hq : q = p1
    · have hbeq : ((q, v).1 == p1) = true := by simp [hq]
      simp only [storeRemove, List.filter, hbeq, Bool.not_true] at ih ⊢
      rw [alookup, if_neg (fun hqq => h (hq ▸ hqq))]
      exact ih
    · have hbeq : ((q, v).1 == p1) = false := by simp [hq]
      simp only [storeRemove, List.filter, hbeq, Bool.not_false] at ih ⊢
      rw [alookup, alookup]
      by_cases hq2 : q = p2
      · rw [if_pos hq2, if_pos hq2]
      · rw [if_neg hq2, if_neg hq2]
        exact ih

/-- C8 counterexample: the filesystem-safe encoding is not injective — the
distinct TaskKeys a:bc and ab:c receive the same cache path, so their records
collide. -/
theorem claim8_counterexample :
    getCachePath "/cache" "a:bc" = getCachePath "/cache" "ab:c" ∧
      ("a:bc" : String) ≠ "ab:c" := by
  exact ⟨rfl, by decide⟩

/-- C8 amended: the store keeps one record per encoded key; whenever two
TaskKeys have distinct encodings, Set and Delete on one key never touch the
other key's record and Get on the other key is unaffected (distinct TaskKeys
whose encodings collide, such as a:bc and ab:c, share one record instead). -/
theorem claim8_amended (cacheDir tk1 tk2 : String)
    (store : List (String × CacheEntry)) (st : TaskState) (ttl now now2 : Int)
    (hne : getCachePath cacheDir tk1 ≠ getCachePath cacheDir tk2) :
    alookup (cacheSet cacheDir store tk1 st ttl now) (getCachePath cacheDir tk2) =
      alookup store (getCachePath cacheDir tk2) ∧
    (cacheGet cacheDir (cacheSet cacheDir store tk1 st ttl now) tk2 now2).1 =
      (cacheGet cacheDir store tk2 now2).1 ∧
    alookup (cacheDelete cacheDir store tk1) (getCachePath cacheDir tk2) =
      alookup store (getCachePath cacheDir tk2) := by
  have hset : alookup (cacheSet cacheDir store tk1 st ttl now) (getCachePath cacheDir tk2) =
      alookup store (getCachePath cacheDir tk2) :=
    alookup_storeWrite_ne store _ hne
  have hdel : alookup (cacheDelete cacheDir store tk1) (getCachePath cacheDir tk2) =
      alookup store (getCachePath cacheDir tk2) :=
    alookup_storeRemove_ne store hne
  refine ⟨hset, ?_, hdel⟩
  unfold cacheGet
  rw [hset]
  cases halo : alookup store (getCachePath cacheDir tk2) with
  | none => rfl
  | some entry =>
    dsimp only
    by_cases hexp : 0 < entry.ttl ∧ entry.ttl < now2 - entry.createdAt
    · rw [if_pos hexp, if_pos hexp]
    · rw [if_neg hexp, if_neg hexp]

theorem claim8_amended_witness :
    alookup (cacheSet "/cache" [] "a:b"
        { taskKey := "a:b", success := true } 0 0) (getCachePath "/cache" "a:c") =
      alookup ([] : List (String × CacheEntry)) (getCachePath "/cache" "a:c") ∧
    (cacheGet "/cache" (cacheSet "/cache" [] "a:b"
        { taskKey := "a:b", success := true } 0 0) "a:c" 5).1 =
      (cacheGet "/cache" ([] : List (String × CacheEntry)) "a:c" 5).1 ∧
    alookup (cacheDelete "/cache" [] "a:b") (getCachePath "/cache" "a:c") =
      alookup ([] : List (String × CacheEntry)) (getCachePath "/cache" "a:c") :=
  claim8_amended "/cache" "a:b" "a:c" [] { taskKey := "a:b", success := true } 0 0 5
    (by decide)

theorem string_data_eq {a b : String} (h : a.data = b.data) : a = b := by
  cases a
  cases b
  exact congrArg String.mk h

theorem insertByPath_perm (x : FileInfo) (l : List FileInfo) :
    (insertByPath x l).Perm (x :: l) := by
  induction l with
  | nil => simp [insertByPath]
  | cons y ys ih =>
    rw [insertByPath]
    by_cases h : strLe x.path y.path = true
    · rw [if_pos h]
    · rw [if_neg h]
      exact (ih.cons y).trans (List.Perm.swap x y ys)

theorem sortByPath_perm (l : List FileInfo) : (sortByPath l).Perm l := by
  induction l with
  | nil => simp [sortByPath]
  | cons x xs ih =>
    rw [sortByPath]
    exact (insertByPath_perm x (sortByPath xs)).trans (ih.cons x)

theorem mem_sortByPath {a : FileInfo} {l : List FileInfo} :
    a ∈ sortByPath l ↔ a ∈ l :=
  (sortByPath_perm l).mem_iff

theorem computeFileInfo_ok {fs : List FSFile} {tb p : String} {fi : FileInfo}
    (h : computeFileInfo fs tb p = .ok fi) :
    ∃ f, f ∈ fs ∧ f.path = p ∧ fi.path = relPath tb p ∧ fi.hash = f.content := by
  cases hf : findFile fs p with
  | none => simp [computeFileInfo, hf] at h
  | some f =>
    simp only [computeFileInfo, computeFileHash, hf] at h
    have hf' : List.find? (fun q => q.path == p) fs = some f := hf
    have hbeq0 := List.find?_some hf'
    have hbeq : (f.path == p) = true := hbeq0
    refine ⟨f, List.mem_of_find?_eq_some hf', eq_of_beq hbeq, ?_⟩
    split at h
    · exact absurd h (by simp)
    · split at h
      · exact absurd h (by simp)
      · split at h
        · exact absurd h (by simp)
        · rename_i hres hh heq
          simp only [Except.ok.injEq] at h
          have hhc : hh = f.content := by
            split at heq
            · simp only [Except.ok.injEq] at heq
              exact heq.symm
            · exact absurd heq (by simp)
          refine ⟨by rw [← h], ?_⟩
          rw [← h]
          exact hhc

theorem infosFor_mem {fs : List FSFile} {tb : String} {ps : List String}
    {l : List FileInfo} (h : infosFor fs tb ps = .ok l) :
    ∀ fi ∈ l, ∃ p ∈ ps, computeFileInfo fs tb p = .ok fi := by
  induction ps generalizing l with
  | nil =>
    simp only [infosFor, Except.ok.injEq] at h
    subst h
    intro fi hfi
    exact absurd hfi (List.not_mem_nil fi)
  | cons p rest ih =>
    rw [infosFor] at h
    split at h
    · exact absurd h (by simp)
    · rename_i info hinfo
      split at h
      · exact absurd h (by simp)
      · rename_i l2 hl2
        simp only [Except.ok.injEq] at h
        subst h
        intro fi hfi
        rcases List.mem_cons.mp hfi with rfl | hfi'
        · exact ⟨p, List.mem_cons_self p rest, hinfo⟩
        · obtain ⟨q, hq, hcfi⟩ := ih hl2 fi hfi'
          exact ⟨q, List.mem_cons_of_mem p hq, hcfi⟩

theorem inputInfosLoop_mem {fs : List FSFile} {tb ap : String} {pats : List String}
    {l : List FileInfo} (h : inputInfosLoop fs tb ap pats = .ok l) :
    ∀ fi ∈ l, ∃ p, (∃ pat ∈ pats, p ∈ resolveGlobPattern fs ap pat) ∧
      computeFileInfo fs tb p = .ok fi := by
  induction pats generalizing l with
  | nil =>
    simp only [inputInfosLoop, Except.ok.injEq] at h
    subst h
    intro fi hfi
    exact absurd hfi (List.not_mem_nil fi)
  | cons pat rest ih =>
    rw [inputInfosLoop] at h
    split at h
    · exact absurd h (by simp)
    · rename_i l1 hl1
      split at h
      · exact absurd h (by simp)
      · rename_i l2 hl2
        simp only [Except.ok.injEq] at h
        subst h
        intro fi hfi
        rcases List.mem_append.mp hfi with hfi1 | hfi2
        · obtain ⟨p, hp, hcfi⟩ := infosFor_mem hl1 fi hfi1
          exact ⟨p, ⟨pat, List.mem_cons_self pat rest, hp⟩, hcfi⟩
        · obtain ⟨p, ⟨pat', hpat', hp⟩, hcfi⟩ := ih hl2 fi hfi2
          exact ⟨p, ⟨pat', List.mem_cons_of_mem pat hpat', hp⟩, hcfi⟩

theorem okInfosFor_mem {fs : List FSFile} {tb : String} {ps : List String} :
    ∀ fi ∈ okInfosFor fs tb ps, ∃ p ∈ ps, computeFileInfo fs tb p = .ok fi := by
  induction ps with
  | nil =>
    intro fi hfi
    exact absurd hfi (List.not_mem_nil fi)
  | cons p rest ih =>
    intro fi hfi
    rw [okInfosFor] at hfi
    split at hfi
    · obtain ⟨q, hq, hcfi⟩ := ih fi hfi
      exact ⟨q, List.mem_cons_of_mem p hq, hcfi⟩
    · rename_i info hinfo
      rcases List.mem_cons.mp hfi with rfl | hfi'
      · exact ⟨p, List.mem_cons_self p rest, hinfo⟩
      · obtain ⟨q, hq, hcfi⟩ := ih fi hfi'
        exact ⟨q, List.mem_cons_of_mem p hq, hcfi⟩

theorem outputInfosLoop_mem {fs : List FSFile} {tb ap : String} {pats : List String} :
    ∀ fi ∈ outputInfosLoop fs tb ap pats, ∃ p, (∃ pat ∈ pats, p ∈ resolveGlobPattern fs ap pat) ∧
      computeFileInfo fs tb p = .ok fi := by
  induction pats with
  | nil =>
    intro fi hfi
    exact absurd hfi (List.not_mem_nil fi)
  | cons pat rest ih =>
    intro fi hfi
    rw [outputInfosLoop] at hfi
    rcases List.mem_append.mp hfi with hfi1 | hfi2
    · obtain ⟨p, hp, hcfi⟩ := okInfosFor_mem fi hfi1
      exact ⟨p, ⟨pat, List.mem_cons_self pat rest, hp⟩, hcfi⟩
    · obtain ⟨p, ⟨pat', hpat', hp⟩, hcfi⟩ := ih fi hfi2
      exact ⟨p, ⟨pat', List.mem_cons_of_mem pat hpat', hp⟩, hcfi⟩

theorem joinPath_relPath (tb p : String) (htb : tb ≠ "")
    (h : (tb.data ++ ['/']).IsPrefix p.data) : joinPath tb (relPath tb p) = p := by
  have hne : p ≠ tb := by
    intro hpe
    subst hpe
    have hlen := h.length_le
    simp at hlen
  rw [relPath, if_neg hne, if_pos (List.isPrefixOf_iff_prefix.mpr h)]
  obtain ⟨rest, hrest⟩ := h
  have hdrop : p.data.drop (tb.data.length + 1) = rest := by
    rw [← hrest]
    have hlen : tb.data.length + 1 = (tb.data ++ ['/']).length := by simp
    rw [hlen, List.drop_left]
  rw [hdrop, joinPath, if_neg htb]
  apply string_data_eq
  show (tb ++ "/" ++ String.mk rest).data = p.data
  have hd : (tb ++ "/" ++ String.mk rest).data = tb.data ++ ['/'] ++ rest := rfl
  rw [hd, hrest]

/-- C9 amended: every FileFingerprint path recorded in a TaskState is the
actual file path made relative to the tracker base path (the directory holding
doctrus.yml), not to the owning workspace root; joining the tracker base back
onto the recorded path recovers the file's absolute path whenever the file
lies under the base. -/
theorem claim9_amended (fs : List FSFile) (tb : String) (ex : TaskExecution)
    (success : Bool) (now : Int) (st : TaskState)
    (h : computeTaskState fs tb ex success now = .ok st) :
    ∀ fi ∈ st.inputHashes ++ st.outputs, ∃ f, f ∈ fs ∧
      fi.path = relPath tb f.path ∧ fi.hash = f.content ∧
      (tb ≠ "" → (tb.data ++ ['/']).IsPrefix f.path.data →
        joinPath tb fi.path = f.path) := by
  unfold computeTaskState at h
  cases hin : computeInputHashes fs tb ex with
  | error e => rw [hin] at h; exact absurd h (by simp)
  | ok inputs =>
    rw [hin] at h
    simp only [Except.ok.injEq] at h
    subst h
    intro fi hfi
    have hsrc : ∃ p, computeFileInfo fs tb p = .ok fi := by
      rcases List.mem_append.mp hfi with hfi1 | hfi2
      · unfold computeInputHashes at hin
        cases hloop : inputInfosLoop fs tb ex.absPath ex.task.inputs with
        | error e => rw [hloop] at hin; exact absurd hin (by simp)
        | ok l0 =>
          rw [hloop] at hin
          simp only [Except.ok.injEq] at hin
          have hfi0 : fi ∈ l0 := by
            rw [← hin] at hfi1
            exact mem_sortByPath.mp hfi1
          obtain ⟨p, _, hcfi⟩ := inputInfosLoop_mem hloop fi hfi0
          exact ⟨p, hcfi⟩
      · have hfi0 : fi ∈ outputInfosLoop fs tb ex.absPath ex.task.outputs := by
          unfold computeOutputHashes at hfi2
          exact mem_sortByPath.mp hfi2
        obtain ⟨p, _, hcfi⟩ := outputInfosLoop_mem fi hfi0
        exact ⟨p, hcfi⟩
    obtain ⟨p, hcfi⟩ := hsrc
    obtain ⟨f, hfmem, hfpath, hfipath, hfihash⟩ := computeFileInfo_ok hcfi
    refine ⟨f, hfmem, by rw [hfipath, hfpath], hfihash, fun htb hpre => ?_⟩
    rw [hfpath] at hpre
    rw [hfipath, hfpath]
    exact joinPath_relPath tb p htb hpre

/-- C9 counterexample: fingerprint paths are relative to the tracker base path
(the project root), not to the owning workspace root — the recorded path
frontend/a.txt does not resolve against the workspace root /repo/frontend, but
does resolve against the tracker base /repo. -/
theorem claim9_counterexample :
    (computeTaskState fsOneInput "/repo" exOneInput true 0).map
        (fun st => st.inputHashes.map (fun i => i.path)) = .ok ["frontend/a.txt"] ∧
    joinPath exOneInput.absPath "frontend/a.txt" ≠ "/repo/frontend/a.txt" ∧
    joinPath "/repo" "frontend/a.txt" = "/repo/frontend/a.txt" := by
  refine ⟨rfl, by decide, rfl⟩

theorem mem_globFiles (fs : List FSFile) (pattern p : String) :
    p ∈ globFiles fs pattern ↔
      ∃ f ∈ fs, f.path = p ∧ globMatch pattern f.path = true ∧
        f.statOk = true ∧ f.regular = true := by
  unfold globFiles
  rw [List.mem_map]
  constructor
  · rintro ⟨f, hf, rfl⟩
    have hm := List.mem_filter.mp hf
    have hb := hm.2
    simp only [Bool.and_eq_true] at hb
    exact ⟨f, hm.1, rfl, hb.1.1, hb.1.2, hb.2⟩
  · rintro ⟨f, hf, rfl, hg, hs, hr⟩
    exact ⟨f, List.mem_filter.mpr ⟨hf, by simp [hg, hs, hr]⟩, rfl⟩

theorem okInfosFor_eq_filterMap (fs : List FSFile) (tb : String) (ps : List String) :
    okInfosFor fs tb ps = ps.filterMap (fun p => (computeFileInfo fs tb p).toOption) := by
  induction ps with
  | nil => rfl
  | cons p rest ih =>
    cases h : computeFileInfo fs tb p with
    | error e =>
      have ht : (computeFileInfo fs tb p).toOption = none := by rw [h]; rfl
      simp only [okInfosFor, h, List.filterMap_cons, ht]
      exact ih
    | ok info =>
      have ht : (computeFileInfo fs tb p).toOption = some info := by rw [h]; rfl
      simp only [okInfosFor, h, List.filterMap_cons, ht]
      rw [ih]
      rfl

theorem outputInfosLoop_eq (fs : List FSFile) (tb ap : String) (pats : List String) :
    outputInfosLoop fs tb ap pats =
      (globExpansion fs ap pats).filterMap (fun p => (computeFileInfo fs tb p).toOption) := by
  induction pats with
  | nil => rfl
  | cons pat rest ih =>
    rw [outputInfosLoop, globExpansion, List.map_cons, List.flatten_cons,
      List.filterMap_append, okInfosFor_eq_filterMap, ih, globExpansion]

theorem infosFor_healthy (fs : List FSFile) (tb : String) (ps : List String)
    (h : ∀ p ∈ ps, ((computeFileInfo fs tb p).toOption).isSome = true) :
    infosFor fs tb ps = .ok (ps.filterMap (fun p => (computeFileInfo fs tb p).toOption)) := by
  induction ps with
  | nil => rfl
  | cons p rest ih =>
    have hp := h p (List.mem_cons_self p rest)
    cases hcfi : computeFileInfo fs tb p with
    | error e => rw [hcfi] at hp; exact absurd hp (by simp [Except.toOption])
    | ok info =>
      rw [infosFor, hcfi]
      rw [ih (fun q hq => h q (List.mem_cons_of_mem p hq))]
      rw [List.filterMap_cons]
      simp only [hcfi, Except.toOption]

theorem inputInfosLoop_healthy (fs : List FSFile) (tb ap : String) (pats : List String)
    (h : ∀ pat ∈ pats, ∀ p ∈ resolveGlobPattern fs ap pat,
      ((computeFileInfo fs tb p).toOption).isSome = true) :
    inputInfosLoop fs tb ap pats =
      .ok ((globExpansion fs ap pats).filterMap
        (fun p => (computeFileInfo fs tb p).toOption)) := by
  induction pats with
  | nil => rfl
  | cons pat rest ih =>
    rw [inputInfosLoop]
    rw [infosFor_healthy fs tb _ (h pat (List.mem_cons_self pat rest))]
    rw [ih (fun q hq => h q (List.mem_cons_of_mem pat hq))]
    dsimp only
    simp only [globExpansion, List.map_cons, List.flatten_cons, List.filterMap_append]

theorem insertByPath_sorted (x : FileInfo) (l : List FileInfo)
    (h : List.Sorted (fun a b : FileInfo => a.path ≤ b.path) l) :
    List.Sorted (fun a b : FileInfo => a.path ≤ b.path) (insertByPath x l) := by
  induction l with
  | nil => simp [insertByPath]
  | cons y ys ih =>
    rw [insertByPath]
    obtain ⟨hy, hys⟩ := List.sorted_cons.mp h
    by_cases hle : strLe x.path y.path = true
    · rw [if_pos hle]
      refine List.sorted_cons.mpr ⟨?_, h⟩
      intro b hb
      rcases List.mem_cons.mp hb with rfl | hb'
      · exact (strLe_iff x.path b.path).mp hle
      · exact le_trans ((strLe_iff x.path y.path).mp hle) (hy b hb')
    · rw [if_neg hle]
      have hyx : y.path ≤ x.path := by
        rcases le_total x.path y.path with hxy | hyx
        · exact absurd ((strLe_iff x.path y.path).mpr hxy) hle
        · exact hyx
      refine List.sorted_cons.mpr ⟨?_, ih hys⟩
      intro b hb
      have hb' : b ∈ x :: ys := (insertByPath_perm x ys).mem_iff.mp hb
      rcases List.mem_cons.mp hb' with rfl | hb''
      · exact hyx
      · exact hy b hb''

theorem sortByPath_sorted (l : List FileInfo) :
    List.Sorted (fun a b : FileInfo => a.path ≤ b.path) (sortByPath l) := by
  induction l with
  | nil => simp [sortByPath]
  | cons x xs ih =>
    rw [sortByPath]
    exact insertByPath_sorted x (sortByPath xs) ih

/-- C6 counterexample: an input file that matches its glob and stats fine but
cannot be opened for reading is not silently skipped — ComputeState fails with
an error — while the very same unreadable file matched by an output pattern is
tolerated by omission. -/
theorem claim6_counterexample :
    computeTaskState fsUnreadable "/repo" exFix true 0 =
      .error ("failed to compute input hashes: failed to compute hash for " ++
        "/repo/frontend/src/a.ts: open /repo/frontend/src/a.ts: permission denied") ∧
    computeOutputHashes fsUnreadable "/repo" exUnreadableOut = [] :=
  ⟨rfl, rfl⟩

/-- C6 amended: ComputeState expands every glob (globFiles keeps exactly the
matching entries that stat to regular files, silently skipping the rest);
output fingerprints are best-effort — every failing fingerprint is dropped,
the function never errors, and the result is the sorted list of fingerprints
of the healthy matched files; input fingerprints equal the same sorted list
whenever every matched input file is readable, but a matched input file whose
fingerprint fails aborts ComputeState with an error instead of being
skipped. -/
theorem claim6_amended (fs : List FSFile) (tb : String) (ex : TaskExecution) :
    (∀ pattern p, p ∈ globFiles fs pattern ↔
      ∃ f ∈ fs, f.path = p ∧ globMatch pattern f.path = true ∧
        f.statOk = true ∧ f.regular = true) ∧
    computeOutputHashes fs tb ex = specFingerprints fs tb ex.absPath ex.task.outputs ∧
    List.Sorted (fun a b : FileInfo => a.path ≤ b.path) (computeOutputHashes fs tb ex) ∧
    ((∀ pat ∈ ex.task.inputs, ∀ p ∈ resolveGlobPattern fs ex.absPath pat,
        ((computeFileInfo fs tb p).toOption).isSome = true) →
      computeInputHashes fs tb ex =
        .ok (specFingerprints fs tb ex.absPath ex.task.inputs)) := by
  refine ⟨fun pattern p => mem_globFiles fs pattern p, ?_, ?_, ?_⟩
  · rw [computeOutputHashes, specFingerprints, outputInfosLoop_eq]
  · rw [computeOutputHashes]
    exact sortByPath_sorted _
  · intro h
    rw [computeInputHashes, inputInfosLoop_healthy fs tb ex.absPath ex.task.inputs h]
    rw [specFingerprints]

theorem claim6_amended_witness :
    computeInputHashes fsFix "/repo" exFix =
      .ok (specFingerprints fsFix "/repo" exFix.absPath exFix.task.inputs) :=
  (claim6_amended fsFix "/repo" exFix).2.2.2 (by decide)

theorem pairsMatch_iff (c p : List FileInfo) :
    pairsMatch c p = true ↔ (c.length = p.length ∧
      ∀ (i : Nat) (h1 : i < c.length) (h2 : i < p.length),
        (c.get ⟨i, h1⟩).path = (p.get ⟨i, h2⟩).path ∧
        (c.get ⟨i, h1⟩).hash = (p.get ⟨i, h2⟩).hash) := by
  induction c generalizing p with
  | nil =>
    cases p with
    | nil => simp [pairsMatch]
    | cons b ps => simp [pairsMatch]
  | cons a cs ih =>
    cases p with
    | nil => simp [pairsMatch]
    | cons b ps =>
      rw [show pairsMatch (a :: cs) (b :: ps) =
            ((a.path == b.path && a.hash == b.hash) && pairsMatch cs ps) from rfl]
      rw [Bool.and_eq_true, Bool.and_eq_true, ih ps]
      constructor
      · rintro ⟨⟨hpath, hhash⟩, hlen, hptw⟩
        refine ⟨by simpa using hlen, ?_⟩
        intro i h1 h2
        cases i with
        | zero => exact ⟨eq_of_beq hpath, eq_of_beq hhash⟩
        | succ j => exact hptw j (Nat.lt_of_succ_lt_succ h1) (Nat.lt_of_succ_lt_succ h2)
      · rintro ⟨hlen, hptw⟩
        have hhead := hptw 0 (Nat.succ_pos _) (Nat.succ_pos _)
        refine ⟨⟨beq_iff_eq.mpr hhead.1, beq_iff_eq.mpr hhead.2⟩, by simpa using hlen, ?_⟩
        intro j h1 h2
        exact hptw (j + 1) (Nat.succ_lt_succ h1) (Nat.succ_lt_succ h2)

theorem inputsMatch_true_iff (c p : List FileInfo) :
    inputsMatch c p = true ↔ ¬ fingerprintsDiffer c p := by
  rw [inputsMatch, Bool.and_eq_true, pairsMatch_iff]
  unfold fingerprintsDiffer
  push_neg
  constructor
  · rintro ⟨_, hlen, hptw⟩
    exact ⟨hlen, fun i h1 h2 => hptw i h1 h2⟩
  · rintro ⟨hlen, hptw⟩
    exact ⟨by simp [hlen], hlen, fun i h1 h2 => hptw i h1 h2⟩

theorem outputsExist_true_iff (fs : List FSFile) (tb : String) (outs : List FileInfo) :
    outputsExist fs tb outs = true ↔
      ¬ ∃ o ∈ outs, findFile fs (joinPath tb o.path) = none := by
  rw [outputsExist, List.all_eq_true]
  constructor
  · rintro h ⟨o, ho, hnone⟩
    have := h o ho
    rw [hnone] at this
    exact absurd this (by simp)
  · intro h o ho
    cases hff : findFile fs (joinPath tb o.path) with
    | none => exact absurd ⟨o, ho, hff⟩ h
    | some f => simp

theorem pairsMatch_refl (l : List FileInfo) : pairsMatch l l = true := by
  induction l with
  | nil => rfl
  | cons a rest ih =>
    rw [show pairsMatch (a :: rest) (a :: rest) =
          ((a.path == a.path && a.hash == a.hash) && pairsMatch rest rest) from rfl]
    simp [ih]

theorem inputsMatch_refl (l : List FileInfo) : inputsMatch l l = true := by
  rw [inputsMatch]
  simp [pairsMatch_refl]

/-- C3: ShouldRun(task, previousState) is true exactly when the previous state
is absent, or records a failure, or the current input fingerprint sequence
differs from the stored one (different length, or different path or digest at
some position), or some previously recorded output path is absent from disk —
and false otherwise (skip). -/
theorem claim3_should_run_iff (fs : List FSFile) (tb : String) (ex : TaskExecution)
    (prev : Option TaskState) (cur : List FileInfo)
    (hcur : computeInputHashes fs tb ex = .ok cur) :
    (shouldRunTask fs tb ex prev).1 = true ↔
      (prev = none ∨ ∃ ps, prev = some ps ∧
        (ps.success = false ∨ fingerprintsDiffer cur ps.inputHashes ∨
         ∃ o ∈ ps.outputs, findFile fs (joinPath tb o.path) = none)) := by
  cases prev with
  | none => simp [shouldRunTask]
  | some ps =>
    simp only [shouldRunTask, Option.some.injEq, reduceCtorEq, false_or]
    by_cases hsucc : ps.success
    · rw [if_neg (by simp [hsucc])]
      simp only [hcur]
      by_cases hmatch : inputsMatch cur ps.inputHashes = true
      · by_cases hout : outputsExist fs tb ps.outputs = true
        · simp only [hmatch, hout, Bool.not_true, Bool.false_eq_true, if_false]
          simp only [Bool.false_eq_true, false_iff]
          rintro ⟨ps', hps', hdisj⟩
          subst hps'
          rcases hdisj with hfail | hdiff | hmiss
          · exact absurd hfail (by simp [hsucc])
          · exact absurd hdiff (inputsMatch_true_iff cur ps.inputHashes |>.mp hmatch)
          · exact absurd hmiss ((outputsExist_true_iff fs tb ps.outputs).mp hout)
        · have hout' : outputsExist fs tb ps.outputs = false := by
            exact Bool.not_eq_true _ ▸ (by simpa using hout)
          simp only [hmatch, hout', Bool.not_true, Bool.not_false, Bool.false_eq_true,
            if_false, if_true]
          simp only [true_iff]
          refine ⟨ps, rfl, Or.inr (Or.inr ?_)⟩
          by_contra hno
          exact hout ((outputsExist_true_iff fs tb ps.outputs).mpr hno)
      · have hmatch' : inputsMatch cur ps.inputHashes = false := by
          simpa using hmatch
        simp only [hmatch', Bool.not_false, if_true]
        simp only [true_iff]
        refine ⟨ps, rfl, Or.inr (Or.inl ?_)⟩
        by_contra hno
        exact hmatch ((inputsMatch_true_iff cur ps.inputHashes).mpr hno)
    · rw [if_pos (by simp [hsucc])]
      simp only [true_iff]
      exact ⟨ps, rfl, Or.inl (by simpa using hsucc)⟩

theorem claim3_should_run_iff_witness :
    computeInputHashes fsOneInput "/repo" exOneInput =
      .ok [{ path := "frontend/a.txt", hash := "A", modTime := 0, size := 1 }] ∧
    ((shouldRunTask fsOneInput "/repo" exOneInput
        (some { taskKey := "frontend:build", success := false })).1 = true ↔
      ((some { taskKey := "frontend:build", success := false } : Option TaskState) = none ∨
        ∃ ps, (some { taskKey := "frontend:build", success := false } : Option TaskState) =
            some ps ∧
          (ps.success = false ∨
           fingerprintsDiffer
             [{ path := "frontend/a.txt", hash := "A", modTime := 0, size := 1 }]
             ps.inputHashes ∨
           ∃ o ∈ ps.outputs, findFile fsOneInput (joinPath "/repo" o.path) = none))) :=
  ⟨rfl, claim3_should_run_iff fsOneInput "/repo" exOneInput
    (some { taskKey := "frontend:build", success := false })
    [{ path := "frontend/a.txt", hash := "A", modTime := 0, size := 1 }] rfl⟩

/-- C7: computing a successful TaskState and immediately asking ShouldRun with
it, with the filesystem unchanged and every recorded output still present,
yields false (skip) and no error. -/
theorem claim7_roundtrip (fs : List FSFile) (tb : String) (ex : TaskExecution)
    (st : TaskState) (now : Int)
    (hst : computeTaskState fs tb ex true now = .ok st)
    (hout : outputsExist fs tb st.outputs = true) :
    shouldRunTask fs tb ex (some st) = (false, none) := by
  unfold computeTaskState at hst
  cases hin : computeInputHashes fs tb ex with
  | error e => rw [hin] at hst; exact absurd hst (by simp)
  | ok inputs =>
    rw [hin] at hst
    simp only [Except.ok.injEq] at hst
    subst hst
    simp only [shouldRunTask, Bool.not_true, if_neg (by simp : ¬ (!true) = true)]
    simp only [hin]
    simp only at hout
    simp [inputsMatch_refl, hout]

theorem claim7_roundtrip_witness :
    shouldRunTask fsFix "/repo" exFix (some stFix) = (false, none) :=
  claim7_roundtrip fsFix "/repo" exFix stFix 7 rfl rfl

theorem claim9_amended_witness :
    ∃ f, f ∈ fsFix ∧
      ({ path := "frontend/src/a.ts", hash := "AAA", modTime := 0, size := 3 } : FileInfo).path
          = relPath "/repo" f.path ∧
      ({ path := "frontend/src/a.ts", hash := "AAA", modTime := 0, size := 3 } : FileInfo).hash
          = f.content ∧
      (("/repo" : String) ≠ "" → (("/repo" : String).data ++ ['/']).IsPrefix f.path.data →
        joinPath "/repo"
          ({ path := "frontend/src/a.ts", hash := "AAA", modTime := 0, size := 3 } : FileInfo).path
          = f.path) :=
  claim9_amended fsFix "/repo" exFix true 7 stFix rfl
    { path := "frontend/src/a.ts", hash := "AAA", modTime := 0, size := 3 } (by decide)

theorem alookup_append {β : Type} (l r : List (String × β)) (k : String) :
    alookup (l ++ r) k = match alookup l k with
      | some v => some v
      | none => alookup r k := by
  induction l with
  | nil => simp [alookup]
  | cons hd rest ih =>
    obtain ⟨q, v⟩ := hd
    by_cases hq : q = k
    · simp [alookup, hq]
    · simp only [List.cons_append, alookup, if_neg hq]
      exact ih

theorem alookup_update {β : Type} (m : List (String × β)) (j k : String) (f : β → β) :
    alookup (m.map (fun q => if q.1 = j then (q.1, f q.2) else q)) k =
      if k = j then (alookup m k).map f else alookup m k := by
  induction m with
  | nil => by_cases h : k = j <;> simp [alookup, h]
  | cons hd rest ih =>
    obtain ⟨q, v⟩ := hd
    simp only [List.map_cons]
    by_cases hqj : q = j
    · have hentry : (if ((q, v) : String × β).1 = j then ((q, v).1, f (q, v).2)
          else (q, v)) = (q, f v) := by simp [hqj]
      rw [hentry]
      by_cases hk : q = k
      · subst hk
        rw [alookup, if_pos rfl, alookup, if_pos rfl, if_pos (by rw [hqj])]
        rfl
      · rw [alookup, if_neg hk, alookup, if_neg hk, ih]
    · have hentry : (if ((q, v) : String × β).1 = j then ((q, v).1, f (q, v).2)
          else (q, v)) = (q, v) := by simp [hqj]
      rw [hentry]
      by_cases hk : q = k
      · subst hk
        rw [alookup, if_pos rfl, alookup, if_pos rfl,
          if_neg (fun h : q = j => hqj h)]
      · rw [alookup, if_neg hk, alookup, if_neg hk, ih]

theorem alookup_setval {β : Type} (m : List (String × β)) (j k : String) (val : β) :
    alookup (m.map (fun q => if q.1 = j then (q.1, val) else q)) k =
      if k = j then (alookup m k).map (fun _ => val) else alookup m k := by
  induction m with
  | nil => by_cases h : k = j <;> simp [alookup, h]
  | cons hd rest ih =>
    obtain ⟨q, v⟩ := hd
    simp only [List.map_cons]
    by_cases hqj : q = j
    · have hentry : (if ((q, v) : String × β).1 = j then ((q, v).1, val)
          else (q, v)) = (q, val) := by simp [hqj]
      rw [hentry]
      by_cases hk : q = k
      · subst hk
        rw [alookup, if_pos rfl, alookup, if_pos rfl, if_pos (by rw [hqj])]
        rfl
      · rw [alookup, if_neg hk, alookup, if_neg hk, ih]
    · have hentry : (if ((q, v) : String × β).1 = j then ((q, v).1, val)
          else (q, v)) = (q, v) := by simp [hqj]
      rw [hentry]
      by_cases hk : q = k
      · subst hk
        rw [alookup, if_pos rfl, alookup, if_pos rfl,
          if_neg (fun h : q = j => hqj h)]
      · rw [alookup, if_neg hk, alookup, if_neg hk, ih]

theorem runnerStep_presence {m m' : List (String × RunnerPhase)} {e : RunnerEvent}
    (h : runnerStep m e = some m') (k : String)
    (hk : (alookup m k).isSome = true) : (alookup m' k).isSome = true := by
  cases e with
  | start j =>
    rw [runnerStep] at h
    cases hj : alookup m j with
    | none =>
      rw [hj] at h
      simp only [Option.some.injEq] at h
      subst h
      rw [alookup_append]
      cases hmk : alookup m k with
      | none => rw [hmk] at hk; exact absurd hk (by simp)
      | some v => simp
    | some v => rw [hj] at h; exact absurd h (by simp)
  | finish j r =>
    rw [runnerStep] at h
    cases hj : alookup m j with
    | none => rw [hj] at h; exact absurd h (by simp)
    | some ph =>
      rw [hj] at h
      cases ph with
      | running =>
        simp only [Option.some.injEq] at h
        subst h
        rw [alookup_setval]
        by_cases hkj : k = j
        · rw [if_pos hkj]
          subst hkj
          rw [hj]
          simp
        · rw [if_neg hkj]
          exact hk
      | done r' => exact absurd h (by simp)
  | observe j r =>
    rw [runnerStep] at h
    cases hj : alookup m j with
    | none => rw [hj] at h; exact absurd h (by simp)
    | some ph =>
      rw [hj] at h
      cases ph with
      | running => exact absurd h (by simp)
      | done r' =>
        dsimp only at h
        by_cases hrr : r' = r
        · rw [if_pos hrr] at h
          simp only [Option.some.injEq] at h
          subst h
          exact hk
        · rw [if_neg hrr] at h
          exact absurd h (by simp)

theorem runnerStep_done_stable {m m' : List (String × RunnerPhase)} {e : RunnerEvent}
    (h : runnerStep m e = some m') (k : String) (r : Option String)
    (hk : alookup m k = some (.done r)) : alookup m' k = some (.done r) := by
  cases e with
  | start j =>
    rw [runnerStep] at h
    cases hj : alookup m j with
    | none =>
      rw [hj] at h
      simp only [Option.some.injEq] at h
      subst h
      rw [alookup_append, hk]
    | some v => rw [hj] at h; exact absurd h (by simp)
  | finish j r2 =>
    rw [runnerStep] at h
    cases hj : alookup m j with
    | none => rw [hj] at h; exact absurd h (by simp)
    | some ph =>
      rw [hj] at h
      cases ph with
      | running =>
        simp only [Option.some.injEq] at h
        subst h
        rw [alookup_setval]
        by_cases hkj : k = j
        · subst hkj
          rw [hk] at hj
          exact absurd hj (by simp)
        · rw [if_neg hkj]
          exact hk
      | done r' => exact absurd h (by simp)
  | observe j r2 =>
    rw [runnerStep] at h
    cases hj : alookup m j with
    | none => rw [hj] at h; exact absurd h (by simp)
    | some ph =>
      rw [hj] at h
      cases ph with
      | running => exact absurd h (by simp)
      | done r' =>
        dsimp only at h
        by_cases hrr : r' = r2
        · rw [if_pos hrr] at h
          simp only [Option.some.injEq] at h
          subst h
          exact hk
        · rw [if_neg hrr] at h
          exact absurd h (by simp)

theorem runnerTrace_done_stable {m m'' : List (String × RunnerPhase)}
    {evs : List RunnerEvent} (h : runnerTrace m evs = some m'') (k : String)
    (r : Option String) (hk : alookup m k = some (.done r)) :
    alookup m'' k = some (.done r) := by
  induction evs generalizing m with
  | nil =>
    simp only [runnerTrace, Option.some.injEq] at h
    subst h
    exact hk
  | cons e rest ih =>
    rw [runnerTrace] at h
    cases hs : runnerStep m e with
    | none => rw [hs] at h; exact absurd h (by simp)
    | some m1 =>
      rw [hs] at h
      exact ih h (runnerStep_done_stable hs k r hk)


theorem runnerTrace_no_start_of_present {m : List (String × RunnerPhase)}
    {evs : List RunnerEvent} {m'' : List (String × RunnerPhase)}
    (h : runnerTrace m evs = some m'') (k : String)
    (hk : (alookup m k).isSome = true) :
    evs.count (RunnerEvent.start k) = 0 := by
  induction evs generalizing m with
  | nil => rfl
  | cons e rest ih =>
    rw [runnerTrace] at h
    cases hs : runnerStep m e with
    | none => rw [hs] at h; exact absurd h (by simp)
    | some m1 =>
      rw [hs] at h
      have hcount := ih h (runnerStep_presence hs k hk)
      rw [List.count_cons, hcount]
      by_cases he : e = RunnerEvent.start k
      · subst he
        rw [runnerStep] at hs
        cases hmk : alookup m k with
        | none => rw [hmk] at hk; exact absurd hk (by simp)
        | some v => rw [hmk] at hs; exact absurd hs (by simp)
      · simp [he]

theorem runnerTrace_start_count {m : List (String × RunnerPhase)}
    {evs : List RunnerEvent} {m'' : List (String × RunnerPhase)}
    (h : runnerTrace m evs = some m'') (k : String) :
    evs.count (RunnerEvent.start k) ≤ 1 := by
  induction evs generalizing m with
  | nil => simp
  | cons e rest ih =>
    rw [runnerTrace] at h
    cases hs : runnerStep m e with
    | none => rw [hs] at h; exact absurd h (by simp)
    | some m1 =>
      rw [hs] at h
      by_cases he : e = RunnerEvent.start k
      · subst he
        have hpres : (alookup m1 k).isSome = true := by
          rw [runnerStep] at hs
          cases hmk : alookup m k with
          | none =>
            rw [hmk] at hs
            simp only [Option.some.injEq] at hs
            rw [← hs, alookup_append, hmk]
            simp [alookup]
          | some v => rw [hmk] at hs; exact absurd hs (by simp)
        have hzero := runnerTrace_no_start_of_present h k hpres
        rw [List.count_cons, hzero]
        simp
      · have hbeq : (e == RunnerEvent.start k) = false := by
          simp only [beq_eq_false_iff_ne, ne_eq]
          exact he
        rw [List.count_cons, hbeq]
        simpa using ih h

theorem runnerTrace_observe_final {m m'' : List (String × RunnerPhase)}
    {evs : List RunnerEvent} (h : runnerTrace m evs = some m'') (k : String)
    (r : Option String) (hmem : RunnerEvent.observe k r ∈ evs) :
    alookup m'' k = some (.done r) := by
  induction evs generalizing m with
  | nil => exact absurd hmem (List.not_mem_nil _)
  | cons e rest ih =>
    rw [runnerTrace] at h
    cases hs : runnerStep m e with
    | none => rw [hs] at h; exact absurd h (by simp)
    | some m1 =>
      rw [hs] at h
      rcases List.mem_cons.mp hmem with he | hrest
      · subst he
        rw [runnerStep] at hs
        cases hmk : alookup m k with
        | none => rw [hmk] at hs; exact absurd hs (by simp)
        | some ph =>
          rw [hmk] at hs
          cases ph with
          | running => exact absurd hs (by simp)
          | done r' =>
            dsimp only at hs
            by_cases hrr : r' = r
            · subst hrr
              rw [if_pos rfl] at hs
              simp only [Option.some.injEq] at hs
              have hmk1 : alookup m1 k = some (RunnerPhase.done r') := by
                rw [← hs]
                exact hmk
              exact runnerTrace_done_stable h k r' hmk1
            · rw [if_neg hrr] at hs
              exact absurd hs (by simp)
      · exact ih h hrest

theorem runnerTrace_finish_final {m m'' : List (String × RunnerPhase)}
    {evs : List RunnerEvent} (h : runnerTrace m evs = some m'') (k : String)
    (r : Option String) (hmem : RunnerEvent.finish k r ∈ evs) :
    alookup m'' k = some (.done r) := by
  induction evs generalizing m with
  | nil => exact absurd hmem (List.not_mem_nil _)
  | cons e rest ih =>
    rw [runnerTrace] at h
    cases hs : runnerStep m e with
    | none => rw [hs] at h; exact absurd h (by simp)
    | some m1 =>
      rw [hs] at h
      rcases List.mem_cons.mp hmem with he | hrest
      · subst he
        rw [runnerStep] at hs
        cases hmk : alookup m k with
        | none => rw [hmk] at hs; exact absurd hs (by simp)
        | some ph =>
          rw [hmk] at hs
          cases ph with
          | running =>
            simp only [Option.some.injEq] at hs
            have hdone : alookup m1 k = some (RunnerPhase.done r) := by
              rw [← hs, alookup_setval, if_pos rfl, hmk]
              rfl
            exact runnerTrace_done_stable h k r hdone
          | done r' => exact absurd hs (by simp)
      · exact ih h hrest

theorem runnerStep_presence_rev {m m' : List (String × RunnerPhase)} {e : RunnerEvent}
    (h : runnerStep m e = some m') (k : String)
    (hk : (alookup m' k).isSome = true) :
    (alookup m k).isSome = true ∨ e = RunnerEvent.start k := by
  cases e with
  | start j =>
    by_cases hjk : j = k
    · subst hjk
      right
      rfl
    · left
      rw [runnerStep] at h
      cases hmj : alookup m j with
      | none =>
        rw [hmj] at h
        simp only [Option.some.injEq] at h
        rw [← h, alookup_append] at hk
        cases hmk : alookup m k with
        | some v => simp
        | none =>
          rw [hmk] at hk
          dsimp only at hk
          rw [show alookup [(j, RunnerPhase.running)] k = none from by
            simp [alookup, hjk]] at hk
          exact absurd hk (by simp)
      | some v => rw [hmj] at h; exact absurd h (by simp)
  | finish j r =>
    left
    rw [runnerStep] at h
    cases hmj : alookup m j with
    | none => rw [hmj] at h; exact absurd h (by simp)
    | some ph =>
      rw [hmj] at h
      cases ph with
      | running =>
        simp only [Option.some.injEq] at h
        rw [← h, alookup_setval] at hk
        by_cases hkj : k = j
        · subst hkj
          rw [hmj]
          rfl
        · rw [if_neg hkj] at hk
          exact hk
      | done r' => exact absurd h (by simp)
  | observe j r =>
    left
    rw [runnerStep] at h
    cases hmj : alookup m j with
    | none => rw [hmj] at h; exact absurd h (by simp)
    | some ph =>
      rw [hmj] at h
      cases ph with
      | running => exact absurd h (by simp)
      | done r' =>
        dsimp only at h
        by_cases hrr : r' = r
        · rw [if_pos hrr] at h
          simp only [Option.some.injEq] at h
          rw [← h] at hk
          exact hk
        · rw [if_neg hrr] at h
          exact absurd h (by simp)

theorem runnerTrace_observe_start {m m'' : List (String × RunnerPhase)}
    {evs : List RunnerEvent} (h : runnerTrace m evs = some m'') (k : String)
    (r : Option String) (hmem : RunnerEvent.observe k r ∈ evs) :
    (alookup m k).isSome = true ∨ RunnerEvent.start k ∈ evs := by
  induction evs generalizing m with
  | nil => exact absurd hmem (List.not_mem_nil _)
  | cons e rest ih =>
    rw [runnerTrace] at h
    cases hs : runnerStep m e with
    | none => rw [hs] at h; exact absurd h (by simp)
    | some m1 =>
      rw [hs] at h
      rcases List.mem_cons.mp hmem with he | hrest
      · subst he
        left
        rw [runnerStep] at hs
        cases hmk : alookup m k with
        | none => rw [hmk] at hs; exact absurd hs (by simp)
        | some ph => simp
      · rcases ih h hrest with hpres | hstart
        · rcases runnerStep_presence_rev hs k hpres with hp | hestart
          · left
            exact hp
          · right
            rw [hestart]
            exact List.mem_cons_self _ _
        · right
          exact List.mem_cons_of_mem e hstart


/-- C2: in every interleaving of one top-level invocation, the state table
guarantees single-flight per TaskKey: the key is claimed (and its command
executed) at most once, every waiter and every later caller observes the one
stored result (identical to the finisher's), and a result can only be observed
after some caller claimed the key. -/
theorem claim2_single_flight (events : List RunnerEvent) (k : String)
    (h : validTrace events) :
    events.count (RunnerEvent.start k) ≤ 1 ∧
    (∀ r1 r2 : Option String,
      RunnerEvent.observe k r1 ∈ events → RunnerEvent.observe k r2 ∈ events → r1 = r2) ∧
    (∀ r r' : Option String,
      RunnerEvent.finish k r ∈ events → RunnerEvent.observe k r' ∈ events → r' = r) ∧
    (∀ r : Option String, RunnerEvent.observe k r ∈ events → RunnerEvent.start k ∈ events) := by
  rw [validTrace] at h
  cases hm : runnerTrace [] events with
  | none => rw [hm] at h; exact absurd h (by simp)
  | some mf =>
    refine ⟨runnerTrace_start_count hm k, ?_, ?_, ?_⟩
    · intro r1 r2 h1 h2
      have hf1 := runnerTrace_observe_final hm k r1 h1
      have hf2 := runnerTrace_observe_final hm k r2 h2
      rw [hf1] at hf2
      simpa using hf2
    · intro r r' hf ho
      have h1 := runnerTrace_finish_final hm k r hf
      have h2 := runnerTrace_observe_final hm k r' ho
      rw [h1] at h2
      simpa using h2.symm
    · intro r ho
      rcases runnerTrace_observe_start hm k r ho with hpres | hstart
      · rw [show alookup ([] : List (String × RunnerPhase)) k = none from rfl] at hpres
        exact absurd hpres (by simp)
      · exact hstart

theorem claim2_single_flight_witness :
    ([RunnerEvent.start "w:a", RunnerEvent.finish "w:a" none,
      RunnerEvent.observe "w:a" none,
      RunnerEvent.observe "w:a" none].count (RunnerEvent.start "w:a") ≤ 1) ∧
    (∀ r1 r2 : Option String,
      RunnerEvent.observe "w:a" r1 ∈ [RunnerEvent.start "w:a",
        RunnerEvent.finish "w:a" none, RunnerEvent.observe "w:a" none,
        RunnerEvent.observe "w:a" none] →
      RunnerEvent.observe "w:a" r2 ∈ [RunnerEvent.start "w:a",
        RunnerEvent.finish "w:a" none, RunnerEvent.observe "w:a" none,
        RunnerEvent.observe "w:a" none] → r1 = r2) ∧
    (∀ r r' : Option String,
      RunnerEvent.finish "w:a" r ∈ [RunnerEvent.start "w:a",
        RunnerEvent.finish "w:a" none, RunnerEvent.observe "w:a" none,
        RunnerEvent.observe "w:a" none] →
      RunnerEvent.observe "w:a" r' ∈ [RunnerEvent.start "w:a",
        RunnerEvent.finish "w:a" none, RunnerEvent.observe "w:a" none,
        RunnerEvent.observe "w:a" none] → r' = r) ∧
    (∀ r : Option String,
      RunnerEvent.observe "w:a" r ∈ [RunnerEvent.start "w:a",
        RunnerEvent.finish "w:a" none, RunnerEvent.observe "w:a" none,
        RunnerEvent.observe "w:a" none] →
      RunnerEvent.start "w:a" ∈ [RunnerEvent.start "w:a",
        RunnerEvent.finish "w:a" none, RunnerEvent.observe "w:a" none,
        RunnerEvent.observe "w:a" none]) :=
  claim2_single_flight
    [RunnerEvent.start "w:a", RunnerEvent.finish "w:a" none,
     RunnerEvent.observe "w:a" none, RunnerEvent.observe "w:a" none] "w:a"
    (by rw [validTrace]; rfl)


theorem alookup_eq_none_iff {β : Type} (l : List (String × β)) (k : String) :
    alookup l k = none ↔ k ∉ keysOf l := by
  induction l with
  | nil => simp [alookup, keysOf]
  | cons hd rest ih =>
    obtain ⟨q, v⟩ := hd
    by_cases hq : q = k
    · subst hq
      simp [alookup, keysOf]
    · simp only [alookup, if_neg hq, keysOf, List.map_cons, List.mem_cons]
      rw [ih]
      constructor
      · rintro hn (hk | hk)
        · exact hq hk.symm
        · exact hn hk
      · intro hn hk
        exact hn (Or.inr hk)

theorem mem_keysOf_of_alookup {β : Type} {l : List (String × β)} {k : String} {v : β}
    (h : alookup l k = some v) : k ∈ keysOf l := by
  by_contra hk
  rw [← alookup_eq_none_iff] at hk
  rw [h] at hk
  exact absurd hk (by simp)

theorem alookup_isSome_of_mem_keysOf {β : Type} {l : List (String × β)} {k : String}
    (h : k ∈ keysOf l) : ∃ v, alookup l k = some v := by
  cases hl : alookup l k with
  | none => exact absurd ((alookup_eq_none_iff l k).mp hl) (by simp [h])
  | some v => exact ⟨v, rfl⟩

theorem keysOf_mapDec_of_mem {ind : List (String × Int)} {d : String}
    (h : d ∈ keysOf ind) : keysOf (mapDec ind d) = keysOf ind := by
  induction ind with
  | nil => exact absurd h (by simp [keysOf])
  | cons hd rest ih =>
    obtain ⟨q, v⟩ := hd
    by_cases hq : q = d
    · subst hq
      rw [mapDec, if_pos rfl]
      rfl
    · rw [mapDec, if_neg hq]
      have hmem : d ∈ keysOf rest := by
        rcases List.mem_cons.mp h with hk | hk
        · exact absurd hk.symm hq
        · exact hk
      show q :: keysOf (mapDec rest d) = q :: keysOf rest
      rw [ih hmem]

theorem alookup_mapDec (ind : List (String × Int)) (d x : String) :
    alookup (mapDec ind d) x =
      if x = d then some ((alookup ind d).getD 0 - 1) else alookup ind x := by
  induction ind with
  | nil =>
    by_cases hx : x = d
    · subst hx
      simp [mapDec, alookup]
    · have hdx : ¬ d = x := fun h => hx h.symm
      simp [mapDec, alookup, hx, hdx]
  | cons hd rest ih =>
    obtain ⟨q, v⟩ := hd
    by_cases hq : q = d
    · subst hq
      rw [mapDec, if_pos rfl]
      by_cases hx : x = q
      · subst hx
        rw [alookup, if_pos rfl, if_pos rfl, alookup, if_pos rfl]
        rfl
      · have hqx : ¬ q = x := fun h => hx h.symm
        rw [alookup, if_neg hqx, if_neg hx, alookup, if_neg hqx]
    · rw [mapDec, if_neg hq]
      by_cases hx : x = q
      · subst hx
        have hxd : ¬ x = d := fun h => hq (h ▸ rfl)
        rw [alookup, if_pos rfl, if_neg hxd, alookup, if_pos rfl]
      · have hqx : ¬ q = x := fun h => hx h.symm
        rw [alookup, if_neg hqx, ih]
        rw [show alookup ((q, v) :: rest) d = alookup rest d from by
          rw [alookup, if_neg hq]]
        rw [show alookup ((q, v) :: rest) x = alookup rest x from by
          rw [alookup, if_neg hqx]]

theorem keysOf_processDeps (deps : List String) (ind : List (String × Int))
    (queue : List String) (h : ∀ d ∈ deps, d ∈ keysOf ind) :
    keysOf (processDeps ind queue deps).1 = keysOf ind := by
  induction deps generalizing ind queue with
  | nil => rfl
  | cons d rest ih =>
    rw [processDeps]
    have hd := h d (List.mem_cons_self d rest)
    have hkeys := keysOf_mapDec_of_mem hd
    have hrest : ∀ q ∈ rest, q ∈ keysOf (mapDec ind d) := by
      intro q hq
      rw [hkeys]
      exact h q (List.mem_cons_of_mem d hq)
    by_cases he : alookup (mapDec ind d) d = some 0
    · rw [if_pos he, ih _ _ hrest, hkeys]
    · rw [if_neg he, ih _ _ hrest, hkeys]

theorem alookup_processDeps (deps : List String) (ind : List (String × Int))
    (queue : List String) (x : String) :
    alookup (processDeps ind queue deps).1 x =
      if deps.count x = 0 then alookup ind x
      else some ((alookup ind x).getD 0 - (deps.count x : Int)) := by
  induction deps generalizing ind queue with
  | nil => simp [processDeps]
  | cons d rest ih =>
    rw [processDeps]
    have hstep : ∀ q : List String,
        alookup (processDeps (mapDec ind d) q rest).1 x =
          if rest.count x = 0 then alookup (mapDec ind d) x
          else some ((alookup (mapDec ind d) x).getD 0 - (rest.count x : Int)) :=
      fun q => ih (mapDec ind d) q
    have hgoal : alookup (processDeps (mapDec ind d)
        (if alookup (mapDec ind d) d = some 0 then queue ++ [d] else queue) rest).1 x =
        if (d :: rest).count x = 0 then alookup ind x
        else some ((alookup ind x).getD 0 - ((d :: rest).count x : Int)) := by
      rw [hstep, alookup_mapDec]
      by_cases hxd : x = d
      · subst hxd
        rw [if_pos rfl, List.count_cons_self]
        by_cases hc : rest.count x = 0
        · rw [if_pos hc, hc]
          simp
        · rw [if_neg hc, if_neg (by omega)]
          cases halo : alookup ind x with
          | none => simp; omega
          | some a => simp; omega
      · have hdx : x ≠ d := hxd
        rw [if_neg hxd, List.count_cons_of_ne hdx]
    by_cases he : alookup (mapDec ind d) d = some 0
    · rw [if_pos he] at hgoal ⊢
      exact hgoal
    · rw [if_neg he] at hgoal ⊢
      exact hgoal

theorem mem_of_alookup {β : Type} {l : List (String × β)} {k : String} {v : β}
    (h : alookup l k = some v) : (k, v) ∈ l := by
  induction l with
  | nil => simp [alookup] at h
  | cons hd rest ih =>
    obtain ⟨q, w⟩ := hd
    by_cases hq : q = k
    · subst hq
      rw [alookup, if_pos rfl] at h
      simp only [Option.some.injEq] at h
      subst h
      exact List.mem_cons_self _ _
    · rw [alookup, if_neg hq] at h
      exact List.mem_cons_of_mem _ (ih h)

theorem alookup_eq_some_of_mem_nodup {β : Type} {l : List (String × β)} {k : String} {v : β}
    (hnd : (keysOf l).Nodup) (h : (k, v) ∈ l) : alookup l k = some v := by
  induction l with
  | nil => simp at h
  | cons hd rest ih =>
    obtain ⟨q, w⟩ := hd
    have hnd0 : (q :: keysOf rest).Nodup := hnd
    have hnd' : (keysOf rest).Nodup ∧ q ∉ keysOf rest := by
      have := List.nodup_cons.mp hnd0
      exact ⟨this.2, this.1⟩
    rcases List.mem_cons.mp h with h | h
    · rw [Prod.mk.injEq] at h
      obtain ⟨hk, hv⟩ := h
      subst hk; subst hv
      rw [alookup, if_pos rfl]
    · have hq : q ≠ k := by
        intro hqk
        subst hqk
        exact hnd'.2 (List.mem_map.mpr ⟨(q, v), h, rfl⟩)
      rw [alookup, if_neg hq]
      exact ih hnd'.1 h

theorem keysOf_append {β : Type} (l r : List (String × β)) :
    keysOf (l ++ r) = keysOf l ++ keysOf r :=
  List.map_append _ _ _

theorem countTargets_nil (x : String) :
    countTargets ([] : List (String × List String)) x = 0 := rfl

theorem countTargets_cons (q : String) (l : List String)
    (g : List (String × List String)) (x : String) :
    countTargets ((q, l) :: g) x = l.count x + countTargets g x := by
  rw [countTargets, countTargets]
  simp [List.count_append]

theorem mem_adj_flatten {g : List (String × List String)} {u v : String}
    (h : v ∈ adj g u) : v ∈ (g.map Prod.snd).flatten := by
  rw [adj] at h
  cases halo : alookup g u with
  | none => rw [halo] at h; simp at h
  | some l =>
    rw [halo] at h
    exact List.mem_flatten.mpr ⟨l, List.mem_map.mpr ⟨(u, l), mem_of_alookup halo, rfl⟩, h⟩

theorem edgesFromRem_eq_add_erase (g : List (String × List String)) (rem : List String)
    (u k : String) (hu : u ∈ rem) :
    edgesFromRem g rem k = (adj g u).count k + edgesFromRem g (rem.erase u) k := by
  have hperm : rem.Perm (u :: rem.erase u) := List.perm_cons_erase hu
  have hsum := (hperm.map (fun x => (adj g x).count k)).sum_eq
  rw [edgesFromRem, hsum, List.map_cons, List.sum_cons]
  rfl

theorem count_le_edgesFromRem (g : List (String × List String)) (rem : List String)
    (u k : String) (hu : u ∈ rem) :
    (adj g u).count k ≤ edgesFromRem g rem k := by
  rw [edgesFromRem_eq_add_erase g rem u k hu]
  omega

theorem exists_mem_adj_of_edgesFromRem_ne (g : List (String × List String))
    (rem : List String) (k : String) (h : edgesFromRem g rem k ≠ 0) :
    ∃ u ∈ rem, k ∈ adj g u := by
  by_contra hc
  push_neg at hc
  apply h
  rw [edgesFromRem]
  apply List.sum_eq_zero
  intro n hn
  rw [List.mem_map] at hn
  obtain ⟨u, hu, rfl⟩ := hn
  rw [List.count_eq_zero]
  exact hc u hu

theorem edgesFromRem_congr (g g' : List (String × List String)) (rem : List String)
    (k : String) (h : ∀ u ∈ rem, adj g u = adj g' u) :
    edgesFromRem g rem k = edgesFromRem g' rem k := by
  rw [edgesFromRem, edgesFromRem, List.map_congr_left (fun u hu => by rw [h u hu])]

theorem edgesFromRem_eq_countTargets (g : List (String × List String)) :
    ∀ (rem : List String) (k : String), (keysOf g).Nodup → rem.Nodup →
    (∀ u ∈ keysOf g, u ∈ rem) →
    edgesFromRem g rem k = countTargets g k := by
  induction g with
  | nil =>
    intro rem k _ _ _
    rw [countTargets_nil, edgesFromRem]
    apply List.sum_eq_zero
    intro n hn
    rw [List.mem_map] at hn
    obtain ⟨u, _, rfl⟩ := hn
    simp [adj, alookup]
  | cons p g' ih =>
    obtain ⟨u0, l0⟩ := p
    intro rem k hgnd hrnd hsub
    have hgnd0 : (u0 :: keysOf g').Nodup := hgnd
    have hknd : u0 ∉ keysOf g' ∧ (keysOf g').Nodup := List.nodup_cons.mp hgnd0
    have hu0 : u0 ∈ rem := hsub u0 (by simp [keysOf])
    have h1 : edgesFromRem ((u0, l0) :: g') rem k =
        (adj ((u0, l0) :: g') u0).count k + edgesFromRem ((u0, l0) :: g') (rem.erase u0) k :=
      edgesFromRem_eq_add_erase _ _ _ _ hu0
    have hadj0 : adj ((u0, l0) :: g') u0 = l0 := by
      rw [adj, alookup, if_pos rfl]
      rfl
    have hcongr : edgesFromRem ((u0, l0) :: g') (rem.erase u0) k =
        edgesFromRem g' (rem.erase u0) k := by
      apply edgesFromRem_congr
      intro u hu
      have hne : u ≠ u0 := ((List.Nodup.mem_erase_iff hrnd).mp hu).1
      rw [adj, adj, alookup, if_neg (fun h => hne h.symm)]
    have hsub' : ∀ u ∈ keysOf g', u ∈ rem.erase u0 := by
      intro u hu
      have hne : u ≠ u0 := by
        intro h
        subst h
        exact hknd.1 hu
      exact (List.mem_erase_of_ne hne).mpr (hsub u (by simp [keysOf] at hu ⊢; exact Or.inr hu))
    have hrec := ih (rem.erase u0) k hknd.2 (hrnd.erase u0) hsub'
    rw [h1, hadj0, hcongr, hrec, countTargets_cons]

theorem alookup_bumpIndegree (ind : List (String × Int)) (d x : String) :
    alookup (bumpIndegree ind d) x =
      if x = d then some ((alookup ind d).getD 0 + 1) else alookup ind x := by
  induction ind with
  | nil =>
    by_cases hx : x = d
    · subst hx
      simp [bumpIndegree, alookup]
    · have hdx : ¬ d = x := fun h => hx h.symm
      simp [bumpIndegree, alookup, hx, hdx]
  | cons hd rest ih =>
    obtain ⟨q, v⟩ := hd
    by_cases hq : q = d
    · subst hq
      rw [bumpIndegree, if_pos rfl]
      by_cases hx : x = q
      · subst hx
        rw [alookup, if_pos rfl, if_pos rfl, alookup, if_pos rfl]
        rfl
      · have hqx : ¬ q = x := fun h => hx h.symm
        rw [alookup, if_neg hqx, if_neg hx, alookup, if_neg hqx]
    · rw [bumpIndegree, if_neg hq]
      by_cases hx : x = q
      · subst hx
        have hxd : ¬ x = d := fun h => hq (h ▸ rfl)
        rw [alookup, if_pos rfl, if_neg hxd, alookup, if_pos rfl]
      · have hqx : ¬ q = x := fun h => hx h.symm
        rw [alookup, if_neg hqx, ih]
        rw [show alookup ((q, v) :: rest) d = alookup rest d from by
          rw [alookup, if_neg hq]]
        rw [show alookup ((q, v) :: rest) x = alookup rest x from by
          rw [alookup, if_neg hqx]]

theorem keysOf_bumpIndegree_of_mem {ind : List (String × Int)} {d : String}
    (h : d ∈ keysOf ind) : keysOf (bumpIndegree ind d) = keysOf ind := by
  induction ind with
  | nil => exact absurd h (by simp [keysOf])
  | cons hd rest ih =>
    obtain ⟨q, v⟩ := hd
    by_cases hq : q = d
    · subst hq
      rw [bumpIndegree, if_pos rfl]
      rfl
    · rw [bumpIndegree, if_neg hq]
      have hmem : d ∈ keysOf rest := by
        rcases List.mem_cons.mp h with hk | hk
        · exact absurd hk.symm hq
        · exact hk
      show q :: keysOf (bumpIndegree rest d) = q :: keysOf rest
      rw [ih hmem]

theorem keysOf_addDependent (g : List (String × List String)) (dk ck : String) :
    keysOf (addDependent g dk ck) =
      if dk ∈ keysOf g then keysOf g else keysOf g ++ [dk] := by
  induction g with
  | nil => simp [addDependent, keysOf]
  | cons p rest ih =>
    obtain ⟨q, l⟩ := p
    by_cases hq : q = dk
    · subst hq
      rw [addDependent, if_pos rfl]
      simp [keysOf]
    · rw [addDependent, if_neg hq]
      have hmem : dk ∈ keysOf ((q, l) :: rest) ↔ dk ∈ keysOf rest := by
        simp only [keysOf, List.map_cons, List.mem_cons]
        constructor
        · rintro (h | h)
          · exact absurd h.symm hq
          · exact h
        · exact Or.inr
      by_cases hdk : dk ∈ keysOf rest
      · rw [if_pos (hmem.mpr hdk)]
        show q :: keysOf (addDependent rest dk ck) = keysOf ((q, l) :: rest)
        rw [ih, if_pos hdk]
        rfl
      · rw [if_neg (fun h => hdk (hmem.mp h))]
        show q :: keysOf (addDependent rest dk ck) = keysOf ((q, l) :: rest) ++ [dk]
        rw [ih, if_neg hdk]
        rfl

theorem countTargets_addDependent (g : List (String × List String)) (dk ck x : String) :
    countTargets (addDependent g dk ck) x =
      countTargets g x + (if x = ck then 1 else 0) := by
  induction g with
  | nil =>
    rw [addDependent, countTargets_cons, countTargets_nil]
    by_cases hx : x = ck
    · subst hx
      simp
    · have hcx : ¬ ck = x := fun h => hx h.symm
      simp [List.count_cons, hcx, hx]
  | cons p rest ih =>
    obtain ⟨q, l⟩ := p
    by_cases hq : q = dk
    · subst hq
      rw [addDependent, if_pos rfl, countTargets_cons, countTargets_cons, List.count_append]
      by_cases hx : x = ck
      · subst hx
        simp
        omega
      · have hcx : ¬ ck = x := fun h => hx h.symm
        simp [List.count_cons, hcx, hx]
    · rw [addDependent, if_neg hq, countTargets_cons, countTargets_cons, ih]
      omega

theorem mem_flatten_addDependent {g : List (String × List String)} {dk ck v : String}
    (h : v ∈ ((addDependent g dk ck).map Prod.snd).flatten) :
    v ∈ (g.map Prod.snd).flatten ∨ v = ck := by
  induction g with
  | nil =>
    right
    simpa [addDependent] using h
  | cons p rest ih =>
    obtain ⟨q, l⟩ := p
    by_cases hq : q = dk
    · subst hq
      rw [addDependent, if_pos rfl] at h
      simp only [List.map_cons, List.flatten_cons, List.mem_append] at h ⊢
      rcases h with h | h
      · rcases h with h | h
        · exact Or.inl (Or.inl h)
        · right
          simpa using h
      · exact Or.inl (Or.inr h)
    · rw [addDependent, if_neg hq] at h
      simp only [List.map_cons, List.flatten_cons, List.mem_append] at h ⊢
      rcases h with h | h
      · exact Or.inl (Or.inl h)
      · rcases ih h with h | h
        · exact Or.inl (Or.inr h)
        · exact Or.inr h

theorem mem_processDeps_queue (deps : List String) (ind : List (String × Int))
    (queue : List String) (x : String) :
    x ∈ (processDeps ind queue deps).2 ↔
      x ∈ queue ∨ ∃ a, alookup ind x = some a ∧ 1 ≤ a ∧ a ≤ (deps.count x : Int) := by
  induction deps generalizing ind queue with
  | nil =>
    rw [processDeps]
    constructor
    · exact fun h => Or.inl h
    · rintro (h | ⟨a, _, h1, h2⟩)
      · exact h
      · rw [List.count_nil] at h2
        simp at h2
        omega
  | cons d rest ih =>
    rw [processDeps]
    by_cases he : alookup (mapDec ind d) d = some 0
    · rw [if_pos he, ih, alookup_mapDec]
      by_cases hxd : x = d
      · subst hxd
        rw [if_pos rfl, List.count_cons_self]
        cases halo : alookup ind x with
        | none =>
          rw [alookup_mapDec, if_pos rfl, halo] at he
          simp at he
        | some a =>
          rw [alookup_mapDec, if_pos rfl, halo] at he
          simp only [Option.getD_some, Option.some.injEq] at he
          have ha : a = 1 := by omega
          subst ha
          constructor
          · intro _
            refine Or.inr ⟨1, rfl, le_refl 1, ?_⟩
            push_cast
            omega
          · intro _
            exact Or.inl (List.mem_append_right _ (List.mem_singleton_self x))
      · rw [if_neg hxd, List.count_cons_of_ne hxd]
        have hmq : x ∈ queue ++ [d] ↔ x ∈ queue := by
          simp [hxd]
        rw [hmq]
    · rw [if_neg he, ih, alookup_mapDec]
      by_cases hxd : x = d
      · subst hxd
        rw [if_pos rfl, List.count_cons_self]
        cases halo : alookup ind x with
        | none =>
          simp only [Option.getD_none]
          constructor
          · rintro (h | ⟨a, ha, h1, h2⟩)
            · exact Or.inl h
            · simp only [Option.some.injEq] at ha
              omega
          · rintro (h | ⟨a, ha, h1, h2⟩)
            · exact Or.inl h
            · exact absurd ha (by simp)
        | some a =>
          rw [alookup_mapDec, if_pos rfl, halo] at he
          simp only [Option.getD_some, Option.some.injEq] at he
          have ha : a ≠ 1 := fun h => he (by omega)
          simp only [Option.getD_some]
          constructor
          · rintro (h | ⟨b, hb, h1, h2⟩)
            · exact Or.inl h
            · simp only [Option.some.injEq] at hb
              refine Or.inr ⟨a, rfl, by omega, ?_⟩
              push_cast at h2 ⊢
              omega
          · rintro (h | ⟨b, hb, h1, h2⟩)
            · exact Or.inl h
            · simp only [Option.some.injEq] at hb
              subst hb
              refine Or.inr ⟨a - 1, rfl, by omega, ?_⟩
              push_cast at h2 ⊢
              omega
      · rw [if_neg hxd, List.count_cons_of_ne hxd]

theorem processDeps_queue_nodup (deps : List String) :
    ∀ (ind : List (String × Int)) (queue : List String),
    queue.Nodup →
    (∀ k ∈ queue, ∃ a, alookup ind k = some a ∧ a ≤ 0) →
    (processDeps ind queue deps).2.Nodup := by
  induction deps with
  | nil =>
    intro ind queue hq _
    rw [processDeps]
    exact hq
  | cons d rest ih =>
    intro ind queue hq hv
    rw [processDeps]
    by_cases he : alookup (mapDec ind d) d = some 0
    · rw [if_pos he]
      have hd : d ∉ queue := by
        intro hdq
        obtain ⟨a, ha, hle⟩ := hv d hdq
        rw [alookup_mapDec, if_pos rfl, ha] at he
        simp only [Option.getD_some, Option.some.injEq] at he
        omega
      apply ih
      · exact List.Nodup.append hq (List.nodup_singleton d)
          (fun a haq had => hd (by rwa [List.mem_singleton.mp had] at haq))
      · intro k hk
        rcases List.mem_append.mp hk with hk | hk
        · by_cases hkd : k = d
          · exact absurd (hkd ▸ hk) hd
          · obtain ⟨a, ha, hle⟩ := hv k hk
            exact ⟨a, by rw [alookup_mapDec, if_neg hkd]; exact ha, hle⟩
        · rw [List.mem_singleton.mp hk]
          exact ⟨0, he, le_refl 0⟩
    · rw [if_neg he]
      apply ih _ _ hq
      intro k hk
      obtain ⟨a, ha, hle⟩ := hv k hk
      by_cases hkd : k = d
      · subst hkd
        refine ⟨a - 1, ?_, by omega⟩
        rw [alookup_mapDec, if_pos rfl, ha]
        rfl
      · exact ⟨a, by rw [alookup_mapDec, if_neg hkd]; exact ha, hle⟩

theorem buildEdges_spec (cfg : Config) (w current : String) (visited : List String)
    (deps : List String) :
    ∀ (g : List (String × List String)) (ind : List (String × Int)) (queue : List String)
      (g2 : List (String × List String)) (ind2 : List (String × Int)) (queue2 : List String),
    buildEdges cfg w current visited deps g ind queue = .ok (g2, ind2, queue2) →
    current ∈ keysOf ind →
    current ∈ visited →
    (∀ v ∈ (g.map Prod.snd).flatten, v ∈ visited) →
    (∀ k ∈ keysOf g, k ∈ visited ∨ k ∈ queue) →
    (∀ k ∈ keysOf ind, alookup ind k = some ((countTargets g k : Int))) →
    (keysOf g).Nodup →
    keysOf ind2 = keysOf ind ∧
    (∀ v ∈ (g2.map Prod.snd).flatten, v ∈ visited) ∧
    (∀ k ∈ keysOf g2, k ∈ visited ∨ k ∈ queue2) ∧
    (∀ k ∈ keysOf ind2, alookup ind2 k = some ((countTargets g2 k : Int))) ∧
    (keysOf g2).Nodup := by
  induction deps with
  | nil =>
    intro g ind queue g2 ind2 queue2 h h1 h2 h3 h4 h5 h6
    rw [buildEdges] at h
    simp only [Except.ok.injEq, Prod.mk.injEq] at h
    obtain ⟨hg, hind, hqueue⟩ := h
    subst hg; subst hind; subst hqueue
    exact ⟨rfl, h3, h4, h5, h6⟩
  | cons dep rest ih =>
    intro g ind queue g2 ind2 queue2 h h1 h2 h3 h4 h5 h6
    rw [buildEdges] at h
    cases hp : parseDepRef w dep with
    | error e =>
      rw [hp] at h
      exact absurd h (by simp)
    | ok p =>
      obtain ⟨dw, dt⟩ := p
      rw [hp] at h
      dsimp only at h
      cases hgt : getTask cfg dw dt with
      | none =>
        rw [hgt] at h
        exact absurd h (by simp)
      | some task =>
        rw [hgt] at h
        dsimp only at h
        have hkeys : keysOf (bumpIndegree ind current) = keysOf ind :=
          keysOf_bumpIndegree_of_mem h1
        have h1' : current ∈ keysOf (bumpIndegree ind current) := by
          rw [hkeys]; exact h1
        have h3' : ∀ v ∈ ((addDependent g (taskKey dw dt) current).map Prod.snd).flatten,
            v ∈ visited := by
          intro v hv
          rcases mem_flatten_addDependent hv with hv | hv
          · exact h3 v hv
          · exact hv ▸ h2
        have h4' : ∀ k ∈ keysOf (addDependent g (taskKey dw dt) current),
            k ∈ visited ∨
              k ∈ (if taskKey dw dt ∈ visited then queue else queue ++ [taskKey dw dt]) := by
          intro k hk
          rw [keysOf_addDependent] at hk
          by_cases hdkg : taskKey dw dt ∈ keysOf g
          · rw [if_pos hdkg] at hk
            rcases h4 k hk with hh | hh
            · exact Or.inl hh
            · right
              split
              · exact hh
              · exact List.mem_append_left _ hh
          · rw [if_neg hdkg] at hk
            rcases List.mem_append.mp hk with hh | hh
            · rcases h4 k hh with hv | hv
              · exact Or.inl hv
              · right
                split
                · exact hv
                · exact List.mem_append_left _ hv
            · rw [List.mem_singleton.mp hh]
              by_cases hvv : taskKey dw dt ∈ visited
              · exact Or.inl hvv
              · right
                rw [if_neg hvv]
                exact List.mem_append_right _ (List.mem_singleton_self _)
        have h5' : ∀ k ∈ keysOf (bumpIndegree ind current),
            alookup (bumpIndegree ind current) k =
              some ((countTargets (addDependent g (taskKey dw dt) current) k : Int)) := by
          intro k hk
          rw [hkeys] at hk
          rw [alookup_bumpIndegree, countTargets_addDependent]
          by_cases hkc : k = current
          · subst hkc
            rw [if_pos rfl, if_pos rfl, h5 k hk]
            simp only [Option.getD_some, Option.some.injEq]
            push_cast
            ring
          · rw [if_neg hkc, if_neg hkc, h5 k hk]
            norm_num
        have h6' : (keysOf (addDependent g (taskKey dw dt) current)).Nodup := by
          rw [keysOf_addDependent]
          split
          · exact h6
          · rename_i hnm
            exact List.Nodup.append h6 (List.nodup_singleton _)
              (fun a ha hb => hnm (by rwa [List.mem_singleton.mp hb] at ha))
        obtain ⟨hA, hB, hC, hD, hE⟩ := ih (addDependent g (taskKey dw dt) current)
          (bumpIndegree ind current)
          (if taskKey dw dt ∈ visited then queue else queue ++ [taskKey dw dt])
          g2 ind2 queue2 h h1' h2 h3' h4' h5' h6'
        exact ⟨by rw [hA, hkeys], hB, hC, hD, hE⟩

theorem buildLoop_spec (cfg : Config) :
    ∀ (fuel : Nat) (queue visited : List String) (g : List (String × List String))
      (ind : List (String × Int)) (gr : List (String × List String))
      (indr : List (String × Int)),
    buildLoop cfg fuel queue visited g ind = .ok (gr, indr) →
    (keysOf ind).Nodup →
    (∀ k, k ∈ keysOf ind ↔ k ∈ visited) →
    (∀ k ∈ visited, ∃ w t task, splitColon k = [w, t] ∧ getTask cfg w t = some task) →
    (∀ v ∈ (g.map Prod.snd).flatten, v ∈ visited) →
    (∀ k ∈ keysOf g, k ∈ visited ∨ k ∈ queue) →
    (∀ k ∈ keysOf ind, alookup ind k = some ((countTargets g k : Int))) →
    (keysOf g).Nodup →
    (keysOf indr).Nodup ∧
    (∀ k ∈ keysOf indr, ∃ w t task, splitColon k = [w, t] ∧ getTask cfg w t = some task) ∧
    (∀ v ∈ (gr.map Prod.snd).flatten, v ∈ keysOf indr) ∧
    (∀ k ∈ keysOf gr, k ∈ keysOf indr) ∧
    (∀ k ∈ keysOf indr, alookup indr k = some ((countTargets gr k : Int))) ∧
    (keysOf gr).Nodup := by
  intro fuel
  induction fuel with
  | zero =>
    intro queue visited g ind gr indr h
    rw [buildLoop] at h
    exact absurd h (by simp)
  | succ n ih =>
    intro queue visited g ind gr indr h h1 h2 h3 h4 h5 h6 h7
    cases queue with
    | nil =>
      rw [buildLoop] at h
      simp only [Except.ok.injEq, Prod.mk.injEq] at h
      obtain ⟨hg, hi⟩ := h
      subst hg; subst hi
      refine ⟨h1, fun k hk => h3 k ((h2 k).mp hk), ?_, ?_, h6, h7⟩
      · exact fun v hv => (h2 v).mpr (h4 v hv)
      · intro k hk
        rcases h5 k hk with hk' | hk'
        · exact (h2 k).mpr hk'
        · exact absurd hk' (by simp)
    | cons current rest =>
      rw [buildLoop] at h
      by_cases hvis : current ∈ visited
      · rw [if_pos hvis] at h
        apply ih rest visited g ind gr indr h h1 h2 h3 h4 ?_ h6 h7
        intro k hk
        rcases h5 k hk with hk' | hk'
        · exact Or.inl hk'
        · rcases List.mem_cons.mp hk' with hk'' | hk''
          · exact Or.inl (hk'' ▸ hvis)
          · exact Or.inr hk''
      · rw [if_neg hvis] at h
        split at h
        · rename_i w0 t0 hsp
          split at h
          · exact absurd h (by simp)
          · rename_i task hgt
            dsimp only at h
            have hnone : alookup ind current = none :=
              (alookup_eq_none_iff ind current).mpr (fun hc => hvis ((h2 current).mp hc))
            rw [hnone] at h
            simp only [Option.isSome_none, Bool.false_eq_true, if_false] at h
            split at h
            · exact absurd h (by simp)
            · rename_i res g2 ind2 queue2 hbe
              have hct0 : countTargets g current = 0 :=
                List.count_eq_zero.mpr (fun hc => hvis (h4 current hc))
              have hbase : ∀ k ∈ keysOf (ind ++ [(current, (0 : Int))]),
                  alookup (ind ++ [(current, (0 : Int))]) k =
                    some ((countTargets g k : Int)) := by
                intro k hk
                rw [keysOf_append] at hk
                rw [alookup_append]
                rcases List.mem_append.mp hk with hk' | hk'
                · rw [h6 k hk']
                · have hkc : k = current := by simpa [keysOf] using hk'
                  subst hkc
                  rw [hnone, hct0]
                  simp [alookup]
              have hcmem : current ∈ keysOf (ind ++ [(current, (0 : Int))]) := by
                rw [keysOf_append]
                exact List.mem_append_right _ (by simp [keysOf])
              obtain ⟨hA, hB, hC, hD, hE⟩ := buildEdges_spec cfg w0 current
                (current :: visited) task.dependsOn g (ind ++ [(current, (0 : Int))]) rest
                g2 ind2 queue2 hbe hcmem (List.mem_cons_self _ _)
                (fun v hv => List.mem_cons_of_mem _ (h4 v hv))
                (fun k hk => by
                  rcases h5 k hk with hk' | hk'
                  · exact Or.inl (List.mem_cons_of_mem _ hk')
                  · rcases List.mem_cons.mp hk' with hk'' | hk''
                    · exact Or.inl (hk'' ▸ List.mem_cons_self _ _)
                    · exact Or.inr hk'')
                hbase h7
              have hkeys2 : keysOf ind2 = keysOf ind ++ [current] := by
                rw [hA, keysOf_append]
                rfl
              apply ih queue2 (current :: visited) g2 ind2 gr indr h
              · rw [hkeys2]
                exact List.Nodup.append h1 (List.nodup_singleton _)
                  (fun a ha hb => hvis (by
                    rw [List.mem_singleton.mp hb] at ha
                    exact (h2 current).mp ha))
              · intro k
                rw [hkeys2]
                constructor
                · intro hk
                  rcases List.mem_append.mp hk with hk' | hk'
                  · exact List.mem_cons_of_mem _ ((h2 k).mp hk')
                  · exact (List.mem_singleton.mp hk') ▸ List.mem_cons_self _ _
                · intro hk
                  rcases List.mem_cons.mp hk with hk' | hk'
                  · exact hk' ▸ List.mem_append_right _ (List.mem_singleton_self _)
                  · exact List.mem_append_left _ ((h2 k).mpr hk')
              · intro k hk
                rcases List.mem_cons.mp hk with hk' | hk'
                · exact ⟨w0, t0, task, by rw [hk']; exact hsp, hgt⟩
                · exact h3 k hk'
              · exact hB
              · exact hC
              · exact hD
              · exact hE
        · exact absurd h (by simp)

theorem buildDependencyGraph_spec (cfg : Config) (w t : String)
    (g : List (String × List String)) (ind : List (String × Int))
    (h : buildDependencyGraph cfg w t = .ok (g, ind)) :
    (keysOf ind).Nodup ∧
    (∀ k ∈ keysOf ind, ∃ w' t' task, splitColon k = [w', t'] ∧
        getTask cfg w' t' = some task) ∧
    (∀ v ∈ (g.map Prod.snd).flatten, v ∈ keysOf ind) ∧
    (∀ k ∈ keysOf g, k ∈ keysOf ind) ∧
    (∀ k ∈ keysOf ind, alookup ind k = some ((countTargets g k : Int))) ∧
    (keysOf g).Nodup := by
  refine buildLoop_spec cfg (totalDeps cfg + totalTasks cfg + 2) [taskKey w t] [] [] []
    g ind h List.nodup_nil (by simp [keysOf]) (by simp) (by simp) (by simp [keysOf])
    (by simp [keysOf]) List.nodup_nil

theorem resolveTaskExecution_ok_of_getTask {cfg : Config} {w t : String} {task : Task}
    (basePath : String) (h : getTask cfg w t = some task) :
    ∃ e, resolveTaskExecution cfg basePath w t = .ok e := by
  cases hw : getWorkspace cfg w with
  | none =>
    rw [getTask, hw] at h
    exact absurd h (by simp)
  | some ws => exact ⟨_, by rw [resolveTaskExecution, hw, h]⟩

theorem mem_ready_queue {ind : List (String × Int)} {k : String}
    (hnd : (keysOf ind).Nodup) :
    k ∈ (ind.filter (fun p => p.2 = 0)).map Prod.fst ↔ alookup ind k = some 0 := by
  constructor
  · intro h
    rw [List.mem_map] at h
    obtain ⟨p, hp, hpk⟩ := h
    rw [List.mem_filter] at hp
    obtain ⟨hpm, hp0⟩ := hp
    obtain ⟨a, b⟩ := p
    simp only [decide_eq_true_eq] at hp0
    subst hp0
    exact alookup_eq_some_of_mem_nodup hnd (hpk ▸ hpm)
  · intro h
    exact List.mem_map.mpr ⟨(k, 0), List.mem_filter.mpr ⟨mem_of_alookup h, by simp⟩, rfl⟩

theorem kahnLoop_spec (cfg : Config) (basePath : String)
    (g : List (String × List String)) :
    ∀ (fuel : Nat) (ind : List (String × Int)) (queue rem : List String),
    queue.length + readyCount ind < fuel →
    (keysOf ind).Nodup →
    rem.Nodup →
    (∀ k ∈ rem, k ∈ keysOf ind) →
    queue.Nodup →
    (∀ k ∈ queue, k ∈ rem) →
    (∀ k ∈ rem, alookup ind k = some ((edgesFromRem g rem k : Int))) →
    (∀ k ∈ rem, (k ∈ queue ↔ edgesFromRem g rem k = 0)) →
    (∀ k ∈ keysOf ind, k ∉ rem → edgesFromRem g rem k = 0) →
    (∀ v ∈ (g.map Prod.snd).flatten, v ∈ keysOf ind) →
    (∀ k ∈ rem, ∃ w t e, splitColon k = [w, t] ∧
        resolveTaskExecution cfg basePath w t = Except.ok e) →
    ∃ out, kahnLoop cfg basePath g fuel ind queue = .ok out ∧
      out.Nodup ∧
      (∀ x ∈ out, x ∈ rem) ∧
      (∀ u v, u ∈ rem → v ∈ adj g u → v ∈ out → [u, v].Sublist out) ∧
      (WellFounded (fun u k : String => k ∈ adj g u) → ∀ x ∈ rem, x ∈ out) := by
  intro fuel
  induction fuel with
  | zero =>
    intro ind queue rem hfuel
    omega
  | succ n ih =>
    intro ind queue rem hfuel hnd hrnd hrsub hqnd hqsub hval hready hout hflat hvalid
    cases hq : sortStrings queue with
    | nil =>
      have hqe : queue = [] := by
        have hp := sortStrings_perm queue
        rw [hq] at hp
        exact hp.nil_eq.symm
      refine ⟨[], by rw [kahnLoop, hq], List.nodup_nil, by simp, by simp, ?_⟩
      intro hwf x hx
      exfalso
      obtain ⟨m, hm, hmin⟩ := hwf.has_min {y | y ∈ rem} ⟨x, hx⟩
      have hmq : m ∉ queue := by rw [hqe]; simp
      have hne : edgesFromRem g rem m ≠ 0 := fun h0 => hmq ((hready m hm).mpr h0)
      obtain ⟨u, hu, hmu⟩ := exists_mem_adj_of_edgesFromRem_ne g rem m hne
      exact hmin u hu hmu
    | cons current rest =>
      have hperm := sortStrings_perm queue
      rw [hq] at hperm
      have hcq : current ∈ queue := hperm.mem_iff.mp (List.mem_cons_self _ _)
      have hcr : current ∈ rem := hqsub current hcq
      have hsnd : (current :: rest).Nodup := hperm.nodup_iff.mpr hqnd
      have hcnr : current ∉ rest := (List.nodup_cons.mp hsnd).1
      have hrestnd : rest.Nodup := (List.nodup_cons.mp hsnd).2
      have hrestsub : ∀ k ∈ rest, k ∈ rem :=
        fun k hk => hqsub k (hperm.mem_iff.mp (List.mem_cons_of_mem _ hk))
      obtain ⟨w0, t0, e0, hsp, hres⟩ := hvalid current hcr
      have hc0 : edgesFromRem g rem current = 0 := (hready current hcr).mp hcq
      have hkl : kahnLoop cfg basePath g (n + 1) ind queue =
          (match kahnLoop cfg basePath g n
              (processDeps ind rest (adj g current)).1
              (processDeps ind rest (adj g current)).2 with
           | .error e => .error e
           | .ok out => .ok (current :: out)) := by
        rw [kahnLoop, hq]
        dsimp only
        rw [hsp]
        dsimp only
        rw [hres]
        rfl
      have hadjmem : ∀ d ∈ adj g current, d ∈ keysOf ind :=
        fun d hd => hflat d (mem_adj_flatten hd)
      have hadjrem : ∀ d ∈ adj g current, d ∈ rem := by
        intro d hd
        by_contra hdn
        have h0 := hout d (hadjmem d hd) hdn
        have hle := count_le_edgesFromRem g rem current d hcr
        have hpos : 0 < (adj g current).count d := List.count_pos_iff.mpr hd
        omega
      have hadjne : ∀ d ∈ adj g current, d ≠ current := by
        intro d hd hdc
        rw [hdc] at hd
        have hle := count_le_edgesFromRem g rem current current hcr
        have hpos : 0 < (adj g current).count current := List.count_pos_iff.mpr hd
        omega
      have hadjrem' : ∀ d ∈ adj g current, d ∈ rem.erase current :=
        fun d hd => (List.mem_erase_of_ne (hadjne d hd)).mpr (hadjrem d hd)
      have hkeys : keysOf (processDeps ind rest (adj g current)).1 = keysOf ind :=
        keysOf_processDeps _ _ _ hadjmem
      have hlen : queue.length = rest.length + 1 := by
        have hl := hperm.length_eq
        simpa using hl.symm
      have hmeas : (processDeps ind rest (adj g current)).2.length +
          readyCount (processDeps ind rest (adj g current)).1 < n := by
        have hpm := processDeps_measure (adj g current) ind rest
        omega
      have hrnd' : (rem.erase current).Nodup := hrnd.erase _
      have hcnotrem' : current ∉ rem.erase current := hrnd.not_mem_erase
      have hrem'sub : ∀ k ∈ rem.erase current, k ∈ rem :=
        fun k hk => List.mem_of_mem_erase hk
      have hedge : ∀ k, edgesFromRem g rem k =
          (adj g current).count k + edgesFromRem g (rem.erase current) k :=
        fun k => edgesFromRem_eq_add_erase g rem current k hcr
      have halo : ∀ x, alookup (processDeps ind rest (adj g current)).1 x =
          if (adj g current).count x = 0 then alookup ind x
          else some ((alookup ind x).getD 0 - ((adj g current).count x : Int)) :=
        fun x => alookup_processDeps _ _ _ _
      have hqmem : ∀ x, x ∈ (processDeps ind rest (adj g current)).2 ↔
          x ∈ rest ∨ ∃ a, alookup ind x = some a ∧ 1 ≤ a ∧
            a ≤ ((adj g current).count x : Int) :=
        fun x => mem_processDeps_queue _ _ _ _
      have hval' : ∀ k ∈ rem.erase current,
          alookup (processDeps ind rest (adj g current)).1 k =
            some ((edgesFromRem g (rem.erase current) k : Int)) := by
        intro k hk
        have hkrem := hrem'sub k hk
        have hv := hval k hkrem
        have he := hedge k
        rw [halo k]
        by_cases hc : (adj g current).count k = 0
        · rw [if_pos hc, hv]
          have hee : edgesFromRem g rem k = edgesFromRem g (rem.erase current) k := by omega
          rw [hee]
        · rw [if_neg hc, hv]
          simp only [Option.getD_some, Option.some.injEq]
          have hei : (edgesFromRem g rem k : Int) =
              ((adj g current).count k : Int) +
                (edgesFromRem g (rem.erase current) k : Int) := by
            exact_mod_cast congrArg (fun n : Nat => (n : Int)) he
          omega
      have hqsub' : ∀ k ∈ (processDeps ind rest (adj g current)).2, k ∈ rem.erase current := by
        intro k hk
        rcases (hqmem k).mp hk with hk' | ⟨a, ha, ha1, ha2⟩
        · have hkr : k ∈ rem := hrestsub k hk'
          have hkc : k ≠ current := fun hkc => hcnr (hkc ▸ hk')
          exact (List.mem_erase_of_ne hkc).mpr hkr
        · have hcnt : 0 < (adj g current).count k := by
            by_contra hc
            push_neg at hc
            have hcz : (adj g current).count k = 0 := by omega
            rw [hcz] at ha2
            simp at ha2
            omega
          exact hadjrem' k (List.count_pos_iff.mp hcnt)
      have hqnd' : (processDeps ind rest (adj g current)).2.Nodup := by
        apply processDeps_queue_nodup _ _ _ hrestnd
        intro k hk
        have hkr : k ∈ rem := hrestsub k hk
        have h0 : edgesFromRem g rem k = 0 :=
          (hready k hkr).mp (hperm.mem_iff.mp (List.mem_cons_of_mem _ hk))
        refine ⟨(edgesFromRem g rem k : Int), hval k hkr, ?_⟩
        rw [h0]
        simp
      have hready' : ∀ k ∈ rem.erase current,
          (k ∈ (processDeps ind rest (adj g current)).2 ↔
            edgesFromRem g (rem.erase current) k = 0) := by
        intro k hk
        have hkr := hrem'sub k hk
        have hkc : k ≠ current := fun hkc => hcnotrem' (hkc ▸ hk)
        have he := hedge k
        constructor
        · intro hks
          rcases (hqmem k).mp hks with hkrest | ⟨a, ha, ha1, ha2⟩
          · have h0 : edgesFromRem g rem k = 0 :=
              (hready k hkr).mp (hperm.mem_iff.mp (List.mem_cons_of_mem _ hkrest))
            omega
          · rw [hval k hkr] at ha
            simp only [Option.some.injEq] at ha
            subst ha
            have ha2' : edgesFromRem g rem k ≤ (adj g current).count k := by
              exact_mod_cast ha2
            omega
        · intro h0
          by_cases hcnt : (adj g current).count k = 0
          · have hek : edgesFromRem g rem k = 0 := by omega
            have hkq : k ∈ queue := (hready k hkr).mpr hek
            have hkcr : k ∈ current :: rest := hperm.mem_iff.mpr hkq
            have hkrest : k ∈ rest := by
              rcases List.mem_cons.mp hkcr with hh | hh
              · exact absurd hh hkc
              · exact hh
            exact (hqmem k).mpr (Or.inl hkrest)
          · refine (hqmem k).mpr (Or.inr ⟨(edgesFromRem g rem k : Int), hval k hkr, ?_, ?_⟩)
            · have h1 : 1 ≤ edgesFromRem g rem k := by omega
              exact_mod_cast h1
            · have h2 : edgesFromRem g rem k ≤ (adj g current).count k := by omega
              exact_mod_cast h2
      have hout' : ∀ k ∈ keysOf (processDeps ind rest (adj g current)).1,
          k ∉ rem.erase current → edgesFromRem g (rem.erase current) k = 0 := by
        intro k hk hkn
        rw [hkeys] at hk
        have he := hedge k
        by_cases hkc : k = current
        · subst hkc
          omega
        · have hkrem : k ∉ rem := fun hkr => hkn ((List.mem_erase_of_ne hkc).mpr hkr)
          have h0 := hout k hk hkrem
          omega
      have hflat' : ∀ v ∈ (g.map Prod.snd).flatten,
          v ∈ keysOf (processDeps ind rest (adj g current)).1 := by
        rw [hkeys]
        exact hflat
      have hvalid' : ∀ k ∈ rem.erase current, ∃ w t e, splitColon k = [w, t] ∧
          resolveTaskExecution cfg basePath w t = Except.ok e :=
        fun k hk => hvalid k (hrem'sub k hk)
      have hnd' : (keysOf (processDeps ind rest (adj g current)).1).Nodup := by
        rw [hkeys]
        exact hnd
      have hrsub' : ∀ k ∈ rem.erase current,
          k ∈ keysOf (processDeps ind rest (adj g current)).1 := by
        rw [hkeys]
        exact fun k hk => hrsub k (hrem'sub k hk)
      obtain ⟨out, hok, hond, hosub, horder, hocomp⟩ :=
        ih (processDeps ind rest (adj g current)).1
          (processDeps ind rest (adj g current)).2 (rem.erase current)
          hmeas hnd' hrnd' hrsub' hqnd' hqsub' hval' hready' hout' hflat' hvalid'
      refine ⟨current :: out, ?_, ?_, ?_, ?_, ?_⟩
      · rw [hkl, hok]
      · exact List.nodup_cons.mpr ⟨fun hc => hcnotrem' (hosub current hc), hond⟩
      · intro x hx
        rcases List.mem_cons.mp hx with hx | hx
        · exact hx ▸ hcr
        · exact hrem'sub x (hosub x hx)
      · intro u v hu hv hvout
        rcases List.mem_cons.mp hvout with hvc | hvo
        · exfalso
          subst hvc
          have hle := count_le_edgesFromRem g rem u v hu
          have hpos : 0 < (adj g u).count v := List.count_pos_iff.mpr hv
          omega
        · by_cases huc : u = current
          · subst huc
            exact List.Sublist.cons₂ _ (List.singleton_sublist.mpr hvo)
          · have hu' : u ∈ rem.erase current := (List.mem_erase_of_ne huc).mpr hu
            exact (horder u v hu' hv hvo).cons _
      · intro hwf x hx
        by_cases hxc : x = current
        · exact hxc ▸ List.mem_cons_self _ _
        · exact List.mem_cons_of_mem _ (hocomp hwf x ((List.mem_erase_of_ne hxc).mpr hx))

theorem indexOf_lt_of_pair_sublist :
    ∀ {l : List String} {u v : String}, l.Nodup → [u, v].Sublist l →
      l.indexOf u < l.indexOf v := by
  intro l
  induction l with
  | nil =>
    intro u v _ h
    exact absurd h (by simp)
  | cons x xs ih =>
    intro u v hnd h
    cases h with
    | cons _ h' =>
      have hu : u ∈ xs := h'.subset (by simp)
      have hv : v ∈ xs := h'.subset (by simp)
      have hxxs : x ∉ xs := (List.nodup_cons.mp hnd).1
      have hxu : x ≠ u := fun he => hxxs (he ▸ hu)
      have hxv : x ≠ v := fun he => hxxs (he ▸ hv)
      have hrec := ih (List.nodup_cons.mp hnd).2 h'
      rw [List.indexOf_cons_ne _ hxu, List.indexOf_cons_ne _ hxv]
      omega
    | cons₂ _ h' =>
      have hv : v ∈ xs := h'.subset (by simp)
      have hxv : x ≠ v := fun he => (List.nodup_cons.mp hnd).1 (he ▸ hv)
      rw [List.indexOf_cons_self, List.indexOf_cons_ne _ hxv]
      omega

theorem kahn_sort_of_build (cfg : Config) (basePath w t : String)
    (g : List (String × List String)) (ind : List (String × Int))
    (hbuild : buildDependencyGraph cfg w t = .ok (g, ind)) :
    ∃ out, (topologicalSort cfg basePath g ind =
        if out.length = ind.length then .ok out
        else .error "circular dependency detected in dependency graph") ∧
      out.Nodup ∧ (∀ x ∈ out, x ∈ keysOf ind) ∧
      (∀ u v, u ∈ keysOf ind → v ∈ adj g u → v ∈ out → [u, v].Sublist out) ∧
      (WellFounded (fun u k : String => k ∈ adj g u) → ∀ x ∈ keysOf ind, x ∈ out) := by
  obtain ⟨hnd, hvalid0, hflat, hgsub, hexact, hgnd⟩ :=
    buildDependencyGraph_spec cfg w t g ind hbuild
  have hbridge : ∀ k, edgesFromRem g (keysOf ind) k = countTargets g k :=
    fun k => edgesFromRem_eq_countTargets g (keysOf ind) k hgnd hnd hgsub
  have hq0nd : ((ind.filter (fun p => p.2 = 0)).map Prod.fst).Nodup :=
    List.Nodup.sublist ((List.filter_sublist ind).map Prod.fst) hnd
  have hq0mem : ∀ k, k ∈ (ind.filter (fun p => p.2 = 0)).map Prod.fst ↔
      (k ∈ keysOf ind ∧ countTargets g k = 0) := by
    intro k
    rw [mem_ready_queue hnd]
    constructor
    · intro h
      have hk : k ∈ keysOf ind := mem_keysOf_of_alookup h
      have hx := hexact k hk
      rw [h] at hx
      simp only [Option.some.injEq] at hx
      exact ⟨hk, by omega⟩
    · rintro ⟨hk, hct⟩
      rw [hexact k hk, hct]
      norm_num
  obtain ⟨out, hok, hond, hosub, horder, hocomp⟩ := kahnLoop_spec cfg basePath g
    (((ind.filter (fun p => p.2 = 0)).map Prod.fst).length + readyCount ind + 1) ind
    ((ind.filter (fun p => p.2 = 0)).map Prod.fst) (keysOf ind)
    (by omega) hnd hnd (fun k hk => hk) hq0nd
    (fun k hk => ((hq0mem k).mp hk).1)
    (fun k hk => by rw [hbridge k]; exact hexact k hk)
    (fun k hk => by
      rw [hbridge k]
      exact ⟨fun h => ((hq0mem k).mp h).2, fun h => (hq0mem k).mpr ⟨hk, h⟩⟩)
    (fun k hk hk2 => absurd hk hk2)
    hflat
    (fun k hk => by
      obtain ⟨w', t', task, hsp, hgt⟩ := hvalid0 k hk
      obtain ⟨e, he⟩ := resolveTaskExecution_ok_of_getTask basePath hgt
      exact ⟨w', t', e, hsp, he⟩)
  refine ⟨out, ?_, hond, hosub, horder, hocomp⟩
  rw [topologicalSort]
  rw [hok]

/-- C1: for every configuration whose dependency graph build succeeds and is
acyclic (the dependent relation of the built graph is well-founded),
ResolveDependencies returns a plan that lists every transitively discovered
TaskKey (the keys of the built indegree map) exactly once — diamond
dependencies deduplicated, the plan being a permutation of the discovered
key set — and for every dependency edge u → v the dependency u strictly
precedes the dependent v in the plan. -/
theorem claim1_kahn_topological_order (cfg : Config) (basePath w t : String)
    (g : List (String × List String)) (ind : List (String × Int)) (task : Task)
    (htask : getTask cfg w t = some task)
    (hbuild : buildDependencyGraph cfg w t = .ok (g, ind))
    (hacyc : WellFounded (fun u k : String => k ∈ adj g u)) :
    ∃ plan, resolveDependencies cfg basePath w t = .ok plan ∧
      plan.Perm (keysOf ind) ∧
      (∀ u v, u ∈ keysOf ind → v ∈ adj g u →
        plan.indexOf u < plan.indexOf v) := by
  obtain ⟨hnd, _, hflat, _, _, _⟩ := buildDependencyGraph_spec cfg w t g ind hbuild
  obtain ⟨out, htopo, hond, hosub, horder, hocomp⟩ :=
    kahn_sort_of_build cfg basePath w t g ind hbuild
  have hall := hocomp hacyc
  have hperm : out.Perm (keysOf ind) :=
    List.Subperm.antisymm (hond.subperm (fun a ha => hosub a ha))
      (hnd.subperm (fun a ha => hall a ha))
  have hlen : out.length = ind.length := by
    rw [hperm.length_eq]
    exact List.length_map _ _
  have hres : resolveDependencies cfg basePath w t = .ok out := by
    rw [resolveDependencies, htask]
    dsimp only
    rw [hbuild]
    dsimp only
    rw [htopo, if_pos hlen]
  refine ⟨out, hres, hperm, ?_⟩
  intro u v hu hv
  have hvk : v ∈ keysOf ind := hflat v (mem_adj_flatten hv)
  exact indexOf_lt_of_pair_sublist hond (horder u v hu hv (hall v hvk))

theorem claim1_kahn_topological_order_witness :
    ∃ plan, resolveDependencies cfgSingle "/repo" "w" "a" = .ok plan ∧
      plan.Perm (keysOf [(("w:a" : String), (0 : Int))]) ∧
      (∀ u v, u ∈ keysOf [(("w:a" : String), (0 : Int))] →
        v ∈ adj ([] : List (String × List String)) u →
        plan.indexOf u < plan.indexOf v) :=
  claim1_kahn_topological_order cfgSingle "/repo" "w" "a" [] [("w:a", 0)]
    { command := ["cmd"] } rfl rfl
    ⟨fun a => Acc.intro a (fun y hy => absurd hy (by simp [adj, alookup]))⟩

/-- C4 (amended): when the built dependency graph contains a cycle through a
discovered key, resolution fails with the constant diagnostic "circular
dependency detected in dependency graph" (no representative cycle path), the
failure is reported by runTaskInWorkspace before the runner is invoked, and
zero task executions are attempted. -/
theorem claim4_amended (run : List String → Option String × Nat) (cfg : Config)
    (basePath w t : String) (g : List (String × List String))
    (ind : List (String × Int)) (task : Task) (k : String)
    (htask : getTask cfg w t = some task)
    (hbuild : buildDependencyGraph cfg w t = .ok (g, ind))
    (hk : k ∈ keysOf ind)
    (hcyc : Relation.TransGen (fun u v : String => v ∈ adj g u) k k) :
    runTaskInWorkspace run cfg basePath w t =
      (some ("failed to resolve dependencies: " ++
        "circular dependency detected in dependency graph"), 0) := by
  obtain ⟨hnd, _, hflat, _, _, _⟩ := buildDependencyGraph_spec cfg w t g ind hbuild
  obtain ⟨out, htopo, hond, hosub, horder, _⟩ :=
    kahn_sort_of_build cfg basePath w t g ind hbuild
  have hlen : ¬ out.length = ind.length := by
    intro hlen
    have hsp1 : out.Subperm (keysOf ind) := hond.subperm (fun a ha => hosub a ha)
    have hperm : out.Perm (keysOf ind) := hsp1.perm_of_length_le (by
      rw [hlen]
      exact le_of_eq (List.length_map _ _))
    have hall : ∀ x ∈ keysOf ind, x ∈ out := fun x hx => hperm.mem_iff.mpr hx
    have hstep : ∀ a b, b ∈ adj g a → a ∈ keysOf ind →
        b ∈ keysOf ind ∧ out.indexOf a < out.indexOf b := by
      intro a b hab ha
      have hbk : b ∈ keysOf ind := hflat b (mem_adj_flatten hab)
      exact ⟨hbk, indexOf_lt_of_pair_sublist hond (horder a b ha hab (hall b hbk))⟩
    have hmain : ∀ b, Relation.TransGen (fun u v : String => v ∈ adj g u) k b →
        b ∈ keysOf ind ∧ out.indexOf k < out.indexOf b := by
      intro b htb
      induction htb with
      | single h => exact hstep k _ h hk
      | tail h1 h2 ih =>
        obtain ⟨hbk, hlt⟩ := ih
        obtain ⟨hck, hlt2⟩ := hstep _ _ h2 hbk
        exact ⟨hck, lt_trans hlt hlt2⟩
    exact absurd (hmain k hcyc).2 (lt_irrefl _)
  have hres : resolveDependencies cfg basePath w t =
      .error "circular dependency detected in dependency graph" := by
    rw [resolveDependencies, htask]
    dsimp only
    rw [hbuild]
    dsimp only
    rw [htopo, if_neg hlen]
  rw [runTaskInWorkspace, hres]

theorem claim4_amended_witness :
    runTaskInWorkspace (fun _ => (none, 7)) cfgCycleTwo "/repo" "w" "a" =
      (some ("failed to resolve dependencies: " ++
        "circular dependency detected in dependency graph"), 0) :=
  claim4_amended (fun _ => (none, 7)) cfgCycleTwo "/repo" "w" "a"
    [("w:b", ["w:a"]), ("w:a", ["w:b"])] [("w:a", 1), ("w:b", 1)]
    { command := ["cmd-a"], dependsOn := ["b"] } "w:a" rfl rfl (by decide)
    (Relation.TransGen.tail
      (Relation.TransGen.single
        (show ("w:b" : String) ∈ adj [("w:b", ["w:a"]), ("w:a", ["w:b"])] "w:a" by decide))
      (show ("w:a" : String) ∈ adj [("w:b", ["w:a"]), ("w:a", ["w:b"])] "w:b" by decide))

end Doctrus
